import Mathlib

/-!
Verification of the psync backup tool (`psync.py`, with the legacy variant in
`backup.py`): a shallow embedding of its filter engine, diff planner and
filesystem operation primitives, together with theorems about the planner's
phase ordering, rename-ambiguity handling, purity, threshold boundary,
byte-delta accounting, and the error behaviour of the copy/move primitives
and the `sync` entry point.

Conventions of the embedding:
* Python dicts become association lists (`dictGet` is `d[k]` returning
  `Option`); `dict` iteration order is the list order.
* `os.sep` is modelled as `"/"`; `Path` joining is string concatenation with
  a separator.
* File modification times (floats compared only with `<`, `>`, `=`) are
  modelled as `Int`; sizes as `Nat`; byte deltas as `Int`.
* Reads of file contents (`_last_bytes`) are modelled by an oracle
  `lastBytes : String → List Nat` giving the trailing window of each path.
-/

namespace Psync

/-- `_Metadata`: file metadata `(size, mtime)` used as the rename signature. -/
structure Metadata where
  size : Nat
  mtime : Int
deriving DecidableEq, Repr

/-- `_FileList`: the snapshot produced by `_scandir` (the `visited_inodes`
bookkeeping is scan-internal and not part of the snapshot data consumed by
`_operations`). -/
structure FileList where
  root : String
  relpath_to_stats : List (String × Metadata)
  real_names : List (String × String)
  empty_dirs : List String
deriving DecidableEq, Repr

/-- The operation tuples `(op, src_file, dst_file, byte_diff, summary)`
yielded by `_operations`, as a tagged variant; `D-`/`D+` tuples carry `None`
for the absent path, which the variant drops. -/
inductive Op where
  | deleteDir (src : String) (byteDiff : Int) (summary : String)
  | rename (src dst : String) (byteDiff : Int) (summary : String)
  | delete (src dst : String) (byteDiff : Int) (summary : String)
  | create (src dst : String) (byteDiff : Int) (summary : String)
  | update (src dst : String) (byteDiff : Int) (summary : String)
  | createDir (dst : String) (byteDiff : Int) (summary : String)
deriving DecidableEq, Repr

/-- Python dict access `d[k]`, as an `Option` (`none` is a `KeyError`). -/
def dictGet {α β : Type} [DecidableEq α] : List (α × β) → α → Option β
  | [], _ => none
  | kv :: l, k => if kv.1 = k then some kv.2 else dictGet l k

/-- `Path.__truediv__` / `os.path.join` with `os.sep = "/"`. -/
def joinPath (root rel : String) : String := root ++ "/" ++ rel

/-- Lexicographic comparison of character lists by code point, the order
Python uses on strings. -/
def strLtGo : List Char → List Char → Bool
  | [], [] => false
  | [], _ :: _ => true
  | _ :: _, [] => false
  | c :: cs, d :: ds => if c < d then true else if d < c then false else strLtGo cs ds

/-- `a <= b` on Python strings. -/
def strLe (a b : String) : Bool := ! strLtGo b.data a.data

/-- Ordered insertion (stable: an element goes after existing equals). -/
def insertSorted (x : String) : List String → List String
  | [] => [x]
  | y :: l => if strLe x y then x :: y :: l else y :: insertSorted x l

/-- Python `sorted` on strings: `sorted` is a stable ascending sort, which any
stable sort realizes; insertion sort is used so that terms reduce. -/
def sortStr : List String → List String
  | [] => []
  | x :: l => insertSorted x (sortStr l)

theorem mem_insertSorted (a x : String) (l : List String) :
    a ∈ insertSorted x l ↔ a = x ∨ a ∈ l := by
  induction l with
  | nil => simp [insertSorted]
  | cons y l ih =>
    unfold insertSorted
    split
    · simp
    · simp only [List.mem_cons, ih]
      tauto

theorem mem_sortStr (a : String) (l : List String) : a ∈ sortStr l ↔ a ∈ l := by
  induction l with
  | nil => simp [sortStr]
  | cons x l ih =>
    unfold sortStr
    rw [mem_insertSorted, ih, List.mem_cons]

theorem perm_insertSorted (x : String) (l : List String) :
    (insertSorted x l).Perm (x :: l) := by
  induction l with
  | nil => simp [insertSorted]
  | cons y l ih =>
    unfold insertSorted
    split
    · exact List.Perm.refl _
    · exact (List.Perm.cons y ih).trans (List.Perm.swap x y l)

theorem perm_sortStr (l : List String) : (sortStr l).Perm l := by
  induction l with
  | nil => exact List.Perm.refl _
  | cons x l ih =>
    exact (perm_insertSorted x (sortStr l)).trans (List.Perm.cons x ih)

/-- One insertion step of `_reverse_dict`: a value seen a second time has its
entry overwritten with `None`. -/
def revInsert (acc : List (Metadata × Option String)) (key : String) (val : Metadata) :
    List (Metadata × Option String) :=
  if (dictGet acc val).isSome then
    acc.map fun p => if p.1 = val then (p.1, none) else p
  else acc ++ [(val, some key)]

/-- `_reverse_dict`: swap keys and values; a repeated value maps to `None`. -/
def reverseDict (l : List (String × Metadata)) : List (Metadata × Option String) :=
  l.foldl (fun acc kv => revInsert acc kv.1 kv.2) []

/-- The dict comprehension `{path: stats[path] for path in only}`. -/
def onlyAssoc (fl : FileList) (only : List String) : List (String × Metadata) :=
  only.filterMap fun p => (dictGet fl.relpath_to_stats p).map fun m => (p, m)

/-- `real_names[p]` (total rendering; on the paths reached by the planner the
key is always present, so the default is never used). -/
def realName (fl : FileList) (p : String) : String :=
  (dictGet fl.real_names p).getD p

/-- Mutable state of the rename loop in `_operations`: the two worklists it
removes matched paths from, plus the `(rename_from, rename_to)` pairs and the
`R` operations emitted so far. -/
structure RenameState where
  srcOnly : List String
  dstOnly : List String
  pairs : List (String × String)
  ops : List Op
deriving Repr

/-- One iteration of the rename loop (`for dst_relpath in list(dst_only_relpaths)`):
skip small files, skip ambiguous or missing signatures on either side, skip a
trailing-window mismatch unless `metadata_only`, otherwise remove the pair from
the worklists and emit an `R` operation. -/
def renameStep (srcFiles dstFiles : FileList) (rt : Int) (metadata_only : Bool)
    (lastBytes : String → List Nat)
    (srcRev dstRev : List (Metadata × Option String))
    (st : RenameState) (dst_relpath : String) : RenameState :=
  match dictGet dstFiles.relpath_to_stats dst_relpath with
  | none => st
  | some stats =>
    if (stats.size : Int) < rt then st
    else
      match dictGet srcRev stats with
      | none => st
      | some none => st
      | some (some rename_to) =>
        match dictGet dstRev stats with
        | none => st
        | some none => st
        | some (some rename_from) =>
          if metadata_only = false ∧
              lastBytes (joinPath srcFiles.root rename_to) ≠
                lastBytes (joinPath dstFiles.root rename_from) then st
          else
            let srcOnly := st.srcOnly.erase rename_to
            let dstOnly := st.dstOnly.erase rename_from
            match dictGet dstFiles.real_names rename_from,
                dictGet srcFiles.real_names rename_to with
            | some rf, some rt2 =>
              { srcOnly := srcOnly, dstOnly := dstOnly,
                pairs := st.pairs ++ [(rename_from, rename_to)],
                ops := st.ops ++ [Op.rename (joinPath dstFiles.root rf)
                  (joinPath dstFiles.root rt2) 0 ("R " ++ rf ++ " -> " ++ rt2)] }
            | _, _ =>
              { srcOnly := srcOnly, dstOnly := dstOnly,
                pairs := st.pairs, ops := st.ops }

/-- The whole rename phase: build the two reverse signature indexes over the
source-only and destination-only entries, then fold the loop body over a copy
of the original destination-only list. -/
def renamePhase (srcFiles dstFiles : FileList) (rt : Int) (metadata_only : Bool)
    (lastBytes : String → List Nat) (srcOnly0 dstOnly0 : List String) : RenameState :=
  let srcRev := reverseDict (onlyAssoc srcFiles srcOnly0)
  let dstRev := reverseDict (onlyAssoc dstFiles dstOnly0)
  dstOnly0.foldl (renameStep srcFiles dstFiles rt metadata_only lastBytes srcRev dstRev)
    { srcOnly := srcOnly0, dstOnly := dstOnly0, pairs := [], ops := [] }

/-- Key list of a stats dict. -/
def keys (l : List (String × Metadata)) : List String := l.map Prod.fst

/-- `sorted(src_relpaths.difference(dst_relpaths))`. -/
def srcOnlyList (srcFiles dstFiles : FileList) : List String :=
  sortStr ((keys srcFiles.relpath_to_stats).filter
    fun p => ¬ p ∈ keys dstFiles.relpath_to_stats)

/-- `sorted(dst_relpaths.difference(src_relpaths))`. -/
def dstOnlyList (srcFiles dstFiles : FileList) : List String :=
  sortStr ((keys dstFiles.relpath_to_stats).filter
    fun p => ¬ p ∈ keys srcFiles.relpath_to_stats)

/-- `sorted(src_relpaths.intersection(dst_relpaths))`. -/
def bothList (srcFiles dstFiles : FileList) : List String :=
  sortStr ((keys srcFiles.relpath_to_stats).filter
    fun p => p ∈ keys dstFiles.relpath_to_stats)

/-- Phase 1: delete destination-only empty directories. -/
def deleteDirOps (srcFiles dstFiles : FileList) : List Op :=
  (dstFiles.empty_dirs.filter fun p => ¬ p ∈ srcFiles.empty_dirs).map fun rel =>
    let real := realName dstFiles rel
    Op.deleteDir (joinPath dstFiles.root real) 0 ("- " ++ real ++ "/")

/-- Phase 3: move the remaining destination-only files to the trash, when one
is configured. -/
def deleteOps (dstFiles : FileList) (trash_root : Option String)
    (dstOnly : List String) : List Op :=
  match trash_root with
  | none => []
  | some tr => dstOnly.map fun p =>
      let real := realName dstFiles p
      let m := (dictGet dstFiles.relpath_to_stats p).getD ⟨0, 0⟩
      Op.delete (joinPath dstFiles.root real) (joinPath tr real)
        (-(m.size : Int)) ("- " ++ real)

/-- Phase 4: copy the remaining source-only files over. -/
def createOps (srcFiles dstFiles : FileList) (srcOnly : List String) : List Op :=
  srcOnly.map fun p =>
    let real := realName srcFiles p
    let m := (dictGet srcFiles.relpath_to_stats p).getD ⟨0, 0⟩
    Op.create (joinPath srcFiles.root real) (joinPath dstFiles.root real)
      (m.size : Int) ("+ " ++ real)

/-- Phase 5: update files present in both snapshots whose source copy has a
strictly newer modification time. -/
def updateOps (srcFiles dstFiles : FileList) : List Op :=
  (bothList srcFiles dstFiles).filterMap fun p =>
    match dictGet srcFiles.relpath_to_stats p, dictGet dstFiles.relpath_to_stats p with
    | some ms, some md =>
      if md.mtime < ms.mtime then
        some (Op.update (joinPath srcFiles.root (realName srcFiles p))
          (joinPath dstFiles.root (realName dstFiles p))
          ((ms.size : Int) - (md.size : Int)) ("U " ++ realName dstFiles p))
      else none
    | _, _ => none

/-- The `logger.warning` messages of phase 5: a path present in both snapshots
whose destination copy is strictly newer is skipped with a warning. -/
def updateWarnings (srcFiles dstFiles : FileList) : List String :=
  (bothList srcFiles dstFiles).filterMap fun p =>
    match dictGet srcFiles.relpath_to_stats p, dictGet dstFiles.relpath_to_stats p with
    | some ms, some md =>
      if ms.mtime < md.mtime then
        some ("Working copy is older than backed-up copy, skipping update: " ++ p)
      else none
    | _, _ => none

/-- Phase 6: create source-only empty directories. -/
def createDirOps (srcFiles dstFiles : FileList) : List Op :=
  (srcFiles.empty_dirs.filter fun p => ¬ p ∈ dstFiles.empty_dirs).map fun rel =>
    let real := realName srcFiles rel
    Op.createDir (joinPath dstFiles.root real) 0 ("+ " ++ real ++ "/")

/-- The rename phase actually run by `_operations`: skipped entirely when
`rename_threshold` is `None`. -/
def renameState (srcFiles dstFiles : FileList) (rename_threshold : Option Int)
    (metadata_only : Bool) (lastBytes : String → List Nat) : RenameState :=
  match rename_threshold with
  | none =>
    { srcOnly := srcOnlyList srcFiles dstFiles, dstOnly := dstOnlyList srcFiles dstFiles,
      pairs := [], ops := [] }
  | some rt =>
    renamePhase srcFiles dstFiles rt metadata_only lastBytes
      (srcOnlyList srcFiles dstFiles) (dstOnlyList srcFiles dstFiles)

/-- `_operations`: the full plan, in emission order. -/
def operations (srcFiles dstFiles : FileList) (trash_root : Option String)
    (rename_threshold : Option Int) (metadata_only : Bool)
    (lastBytes : String → List Nat) : List Op :=
  let renSt := renameState srcFiles dstFiles rename_threshold metadata_only lastBytes
  deleteDirOps srcFiles dstFiles
    ++ renSt.ops
    ++ deleteOps dstFiles trash_root renSt.dstOnly
    ++ createOps srcFiles dstFiles renSt.srcOnly
    ++ updateOps srcFiles dstFiles
    ++ createDirOps srcFiles dstFiles

/-- The decision taken by one iteration of the rename loop, as a pure function
of the loop's static data: `none` means the iteration changes nothing;
`some (rename_from, rename_to, emit)` means both worklists get their element
erased, and an `R` operation is emitted with the given real names when
`emit = some (rf, rt2)`. -/
def renameDecide (srcFiles dstFiles : FileList) (rt : Int) (metadata_only : Bool)
    (lastBytes : String → List Nat)
    (srcRev dstRev : List (Metadata × Option String))
    (dst_relpath : String) : Option (String × String × Option (String × String)) :=
  match dictGet dstFiles.relpath_to_stats dst_relpath with
  | none => none
  | some stats =>
    if (stats.size : Int) < rt then none
    else
      match dictGet srcRev stats with
      | none => none
      | some none => none
      | some (some rename_to) =>
        match dictGet dstRev stats with
        | none => none
        | some none => none
        | some (some rename_from) =>
          if metadata_only = false ∧
              lastBytes (joinPath srcFiles.root rename_to) ≠
                lastBytes (joinPath dstFiles.root rename_from) then none
          else
            match dictGet dstFiles.real_names rename_from,
                dictGet srcFiles.real_names rename_to with
            | some rf, some rt2 => some (rename_from, rename_to, some (rf, rt2))
            | _, _ => some (rename_from, rename_to, none)

/-- The `R` operation emitted for one iteration of the rename loop, if any. -/
def decideEmit (srcFiles dstFiles : FileList) (rt : Int) (metadata_only : Bool)
    (lastBytes : String → List Nat)
    (srcRev dstRev : List (Metadata × Option String)) (x : String) : Option Op :=
  match renameDecide srcFiles dstFiles rt metadata_only lastBytes srcRev dstRev x with
  | some (_, _, some (rf, rt2)) =>
    some (Op.rename (joinPath dstFiles.root rf) (joinPath dstFiles.root rt2) 0
      ("R " ++ rf ++ " -> " ++ rt2))
  | _ => none

/-- The `(rename_from, rename_to)` pair recorded for one iteration, if any. -/
def decidePair (srcFiles dstFiles : FileList) (rt : Int) (metadata_only : Bool)
    (lastBytes : String → List Nat)
    (srcRev dstRev : List (Metadata × Option String)) (x : String) :
    Option (String × String) :=
  match renameDecide srcFiles dstFiles rt metadata_only lastBytes srcRev dstRev x with
  | some (f, t, some _) => some (f, t)
  | _ => none

/-- The decision function restates the loop body: `renameStep` is the action
of `renameDecide` on the state. -/
theorem renameStep_eq (srcFiles dstFiles : FileList) (rt : Int) (mo : Bool)
    (lb : String → List Nat) (srcRev dstRev : List (Metadata × Option String))
    (st : RenameState) (x : String) :
    renameStep srcFiles dstFiles rt mo lb srcRev dstRev st x =
      match renameDecide srcFiles dstFiles rt mo lb srcRev dstRev x with
      | none => st
      | some (f, t, none) =>
        { st with srcOnly := st.srcOnly.erase t, dstOnly := st.dstOnly.erase f }
      | some (f, t, some (rf, rt2)) =>
        { srcOnly := st.srcOnly.erase t, dstOnly := st.dstOnly.erase f,
          pairs := st.pairs ++ [(f, t)],
          ops := st.ops ++ [Op.rename (joinPath dstFiles.root rf)
            (joinPath dstFiles.root rt2) 0 ("R " ++ rf ++ " -> " ++ rt2)] } := by
  unfold renameStep renameDecide
  cases dictGet dstFiles.relpath_to_stats x with
  | none => rfl
  | some stats =>
    simp only
    split
    · rfl
    · cases dictGet srcRev stats with
      | none => rfl
      | some o =>
        cases o with
        | none => rfl
        | some rename_to =>
          simp only
          cases dictGet dstRev stats with
          | none => rfl
          | some o2 =>
            cases o2 with
            | none => rfl
            | some rename_from =>
              simp only
              split
              · rfl
              · cases dictGet dstFiles.real_names rename_from with
                | none => rfl
                | some rf =>
                  cases dictGet srcFiles.real_names rename_to with
                  | none => rfl
                  | some rt2 => rfl

/-- The operations emitted by the whole rename loop, in order: one per
iteration that reaches the emitting branch. -/
theorem foldl_renameStep_ops (srcFiles dstFiles : FileList) (rt : Int) (mo : Bool)
    (lb : String → List Nat) (srcRev dstRev : List (Metadata × Option String))
    (l : List String) (st : RenameState) :
    (l.foldl (renameStep srcFiles dstFiles rt mo lb srcRev dstRev) st).ops =
      st.ops ++ l.filterMap (decideEmit srcFiles dstFiles rt mo lb srcRev dstRev) := by
  induction l generalizing st with
  | nil => simp
  | cons x l ih =>
    rw [List.foldl_cons, ih, List.filterMap_cons, renameStep_eq, decideEmit]
    cases renameDecide srcFiles dstFiles rt mo lb srcRev dstRev x with
    | none => simp
    | some d =>
      obtain ⟨f, t, e⟩ := d
      cases e with
      | none => simp
      | some rr => obtain ⟨rf, rt2⟩ := rr; simp

/-- The pairs recorded by the whole rename loop. -/
theorem foldl_renameStep_pairs (srcFiles dstFiles : FileList) (rt : Int) (mo : Bool)
    (lb : String → List Nat) (srcRev dstRev : List (Metadata × Option String))
    (l : List String) (st : RenameState) :
    (l.foldl (renameStep srcFiles dstFiles rt mo lb srcRev dstRev) st).pairs =
      st.pairs ++ l.filterMap (decidePair srcFiles dstFiles rt mo lb srcRev dstRev) := by
  induction l generalizing st with
  | nil => simp
  | cons x l ih =>
    rw [List.foldl_cons, ih, List.filterMap_cons, renameStep_eq, decidePair]
    cases renameDecide srcFiles dstFiles rt mo lb srcRev dstRev x with
    | none => simp
    | some d =>
      obtain ⟨f, t, e⟩ := d
      cases e with
      | none => simp
      | some rr => obtain ⟨rf, rt2⟩ := rr; simp

/-- The loop only ever shrinks the source-only worklist. -/
theorem foldl_renameStep_srcOnly_subset (srcFiles dstFiles : FileList) (rt : Int)
    (mo : Bool) (lb : String → List Nat)
    (srcRev dstRev : List (Metadata × Option String)) (l : List String)
    (st : RenameState) :
    (l.foldl (renameStep srcFiles dstFiles rt mo lb srcRev dstRev) st).srcOnly ⊆
      st.srcOnly := by
  induction l generalizing st with
  | nil => exact fun _ h => h
  | cons x l ih =>
    rw [List.foldl_cons]
    refine (ih _).trans ?_
    rw [renameStep_eq]
    cases renameDecide srcFiles dstFiles rt mo lb srcRev dstRev x with
    | none => exact fun _ h => h
    | some d =>
      obtain ⟨f, t, e⟩ := d
      cases e with
      | none => exact List.erase_subset _ _
      | some rr => obtain ⟨rf, rt2⟩ := rr; exact List.erase_subset _ _

/-- The loop only ever shrinks the destination-only worklist. -/
theorem foldl_renameStep_dstOnly_subset (srcFiles dstFiles : FileList) (rt : Int)
    (mo : Bool) (lb : String → List Nat)
    (srcRev dstRev : List (Metadata × Option String)) (l : List String)
    (st : RenameState) :
    (l.foldl (renameStep srcFiles dstFiles rt mo lb srcRev dstRev) st).dstOnly ⊆
      st.dstOnly := by
  induction l generalizing st with
  | nil => exact fun _ h => h
  | cons x l ih =>
    rw [List.foldl_cons]
    refine (ih _).trans ?_
    rw [renameStep_eq]
    cases renameDecide srcFiles dstFiles rt mo lb srcRev dstRev x with
    | none => exact fun _ h => h
    | some d =>
      obtain ⟨f, t, e⟩ := d
      cases e with
      | none => exact List.erase_subset _ _
      | some rr => obtain ⟨rf, rt2⟩ := rr; exact List.erase_subset _ _

/-- A worklist element never named as a `rename_to` by any iteration survives
the whole loop. -/
theorem foldl_renameStep_srcOnly_mem (srcFiles dstFiles : FileList) (rt : Int)
    (mo : Bool) (lb : String → List Nat)
    (srcRev dstRev : List (Metadata × Option String)) (l : List String)
    (st : RenameState) (p : String) (hp : p ∈ st.srcOnly)
    (h : ∀ x ∈ l, ∀ f t e,
      renameDecide srcFiles dstFiles rt mo lb srcRev dstRev x = some (f, t, e) → t ≠ p) :
    p ∈ (l.foldl (renameStep srcFiles dstFiles rt mo lb srcRev dstRev) st).srcOnly := by
  induction l generalizing st with
  | nil => exact hp
  | cons x l ih =>
    rw [List.foldl_cons]
    refine ih _ ?_ fun y hy => h y (List.mem_cons_of_mem _ hy)
    rw [renameStep_eq]
    cases hd : renameDecide srcFiles dstFiles rt mo lb srcRev dstRev x with
    | none => exact hp
    | some d =>
      obtain ⟨f, t, e⟩ := d
      have ht : t ≠ p := h x (List.mem_cons_self _ _) f t e hd
      cases e with
      | none => exact (List.mem_erase_of_ne (fun hh => ht hh.symm)).mpr hp
      | some rr =>
        obtain ⟨rf, rt2⟩ := rr
        exact (List.mem_erase_of_ne (fun hh => ht hh.symm)).mpr hp

/-- A worklist element never named as a `rename_from` by any iteration survives
the whole loop. -/
theorem foldl_renameStep_dstOnly_mem (srcFiles dstFiles : FileList) (rt : Int)
    (mo : Bool) (lb : String → List Nat)
    (srcRev dstRev : List (Metadata × Option String)) (l : List String)
    (st : RenameState) (p : String) (hp : p ∈ st.dstOnly)
    (h : ∀ x ∈ l, ∀ f t e,
      renameDecide srcFiles dstFiles rt mo lb srcRev dstRev x = some (f, t, e) → f ≠ p) :
    p ∈ (l.foldl (renameStep srcFiles dstFiles rt mo lb srcRev dstRev) st).dstOnly := by
  induction l generalizing st with
  | nil => exact hp
  | cons x l ih =>
    rw [List.foldl_cons]
    refine ih _ ?_ fun y hy => h y (List.mem_cons_of_mem _ hy)
    rw [renameStep_eq]
    cases hd : renameDecide srcFiles dstFiles rt mo lb srcRev dstRev x with
    | none => exact hp
    | some d =>
      obtain ⟨f, t, e⟩ := d
      have hf : f ≠ p := h x (List.mem_cons_self _ _) f t e hd
      cases e with
      | none => exact (List.mem_erase_of_ne (fun hh => hf hh.symm)).mpr hp
      | some rr =>
        obtain ⟨rf, rt2⟩ := rr
        exact (List.mem_erase_of_ne (fun hh => hf hh.symm)).mpr hp

theorem dictGet_append {α β : Type} [DecidableEq α] (l1 l2 : List (α × β)) (k : α) :
    dictGet (l1 ++ l2) k =
      match dictGet l1 k with
      | some w => some w
      | none => dictGet l2 k := by
  induction l1 with
  | nil => rfl
  | cons kv l1 ih =>
    by_cases h : kv.1 = k
    · simp [dictGet, h]
    · simp [dictGet, h, ih]

theorem dictGet_nil {α β : Type} [DecidableEq α] (k : α) :
    dictGet ([] : List (α × β)) k = none := rfl

theorem dictGet_cons {α β : Type} [DecidableEq α] (kv : α × β) (l : List (α × β)) (k : α) :
    dictGet (kv :: l) k = if kv.1 = k then some kv.2 else dictGet l k := rfl

theorem dictGet_mark_self (acc : List (Metadata × Option String)) (v : Metadata)
    (h : (dictGet acc v).isSome) :
    dictGet (acc.map fun p => if p.1 = v then (p.1, none) else p) v = some none := by
  induction acc with
  | nil => simp [dictGet_nil] at h
  | cons kv acc ih =>
    by_cases hk : kv.1 = v
    · simp [dictGet_cons, if_pos hk, hk]
    · rw [List.map_cons, if_neg hk, dictGet_cons, if_neg hk]
      rw [dictGet_cons, if_neg hk] at h
      exact ih h

theorem dictGet_mark_other (acc : List (Metadata × Option String)) (u v : Metadata)
    (h : u ≠ v) :
    dictGet (acc.map fun p => if p.1 = u then (p.1, none) else p) v = dictGet acc v := by
  induction acc with
  | nil => rfl
  | cons kv acc ih =>
    rw [List.map_cons, dictGet_cons, dictGet_cons]
    by_cases hk : kv.1 = u
    · have hkv : kv.1 ≠ v := fun hh => h (hk ▸ hh)
      rw [if_pos hk]
      simp [hkv, ih]
    · rw [if_neg hk]
      by_cases hv : kv.1 = v
      · simp [hv]
      · simp [hv, ih]

theorem dictGet_revInsert_self (acc : List (Metadata × Option String)) (k : String)
    (v : Metadata) :
    dictGet (revInsert acc k v) v =
      match dictGet acc v with
      | some _ => some none
      | none => some (some k) := by
  unfold revInsert
  cases h : dictGet acc v with
  | none =>
    rw [if_neg (by simp [h]), dictGet_append, h]
    simp [dictGet_cons]
  | some w =>
    rw [if_pos (by simp [h]), dictGet_mark_self acc v (by simp [h])]

theorem dictGet_revInsert_other (acc : List (Metadata × Option String)) (k : String)
    (u v : Metadata) (h : u ≠ v) :
    dictGet (revInsert acc k u) v = dictGet acc v := by
  unfold revInsert
  by_cases hu : (dictGet acc u).isSome
  · rw [if_pos hu]
    exact dictGet_mark_other acc u v h
  · rw [if_neg hu, dictGet_append]
    cases hv : dictGet acc v with
    | some w => rfl
    | none => simp [dictGet_cons, dictGet_nil, h]

/-- Generalized lookup law for the `_reverse_dict` fold, value already bound
in the accumulator. -/
theorem foldRev_some (l : List (String × Metadata))
    (acc : List (Metadata × Option String)) (v : Metadata) (w : Option String)
    (h : dictGet acc v = some w) :
    dictGet (l.foldl (fun acc kv => revInsert acc kv.1 kv.2) acc) v =
      if l.filter (fun kv => kv.2 = v) = [] then some w else some none := by
  induction l generalizing acc w with
  | nil => simpa using h
  | cons kv l ih =>
    rw [List.foldl_cons]
    by_cases hv : kv.2 = v
    · have hacc : dictGet (revInsert acc kv.1 kv.2) v = some none := by
        rw [hv, dictGet_revInsert_self, h]
      rw [ih _ none hacc]
      have : (kv :: l).filter (fun kv => kv.2 = v) =
          kv :: l.filter (fun kv => kv.2 = v) := by
        simp [List.filter_cons, hv]
      rw [this]
      simp only [if_neg (List.cons_ne_nil _ _)]
      split <;> rfl
    · have hacc : dictGet (revInsert acc kv.1 kv.2) v = some w := by
        rw [dictGet_revInsert_other _ _ _ _ hv, h]
      rw [ih _ w hacc]
      have : (kv :: l).filter (fun kv => kv.2 = v) = l.filter (fun kv => kv.2 = v) := by
        simp [List.filter_cons, hv]
      rw [this]

/-- Generalized lookup law for the `_reverse_dict` fold, value unbound in the
accumulator: one occurrence gives back its key, two or more give `None`. -/
theorem foldRev_none (l : List (String × Metadata))
    (acc : List (Metadata × Option String)) (v : Metadata)
    (h : dictGet acc v = none) :
    dictGet (l.foldl (fun acc kv => revInsert acc kv.1 kv.2) acc) v =
      match l.filter (fun kv => kv.2 = v) with
      | [] => none
      | [kv] => some (some kv.1)
      | _ :: _ :: _ => some none := by
  induction l generalizing acc with
  | nil => simpa using h
  | cons kv l ih =>
    rw [List.foldl_cons]
    by_cases hv : kv.2 = v
    · have hacc : dictGet (revInsert acc kv.1 kv.2) v = some (some kv.1) := by
        rw [hv, dictGet_revInsert_self, h]
      rw [foldRev_some _ _ _ _ hacc]
      have : (kv :: l).filter (fun kv => kv.2 = v) =
          kv :: l.filter (fun kv => kv.2 = v) := by
        simp [List.filter_cons, hv]
      rw [this]
      cases hl : l.filter (fun kv => kv.2 = v) with
      | nil => simp
      | cons a t => simp
    · have hacc : dictGet (revInsert acc kv.1 kv.2) v = none := by
        rw [dictGet_revInsert_other _ _ _ _ hv, h]
      rw [ih _ hacc]
      have : (kv :: l).filter (fun kv => kv.2 = v) = l.filter (fun kv => kv.2 = v) := by
        simp [List.filter_cons, hv]
      rw [this]

/-- Lookup law for `_reverse_dict` itself. -/
theorem dictGet_reverseDict (l : List (String × Metadata)) (v : Metadata) :
    dictGet (reverseDict l) v =
      match l.filter (fun kv => kv.2 = v) with
      | [] => none
      | [kv] => some (some kv.1)
      | _ :: _ :: _ => some none :=
  foldRev_none l [] v rfl

/-- A unique (non-`None`) reverse-index hit pins down the single entry with
that signature. -/
theorem reverseDict_unique (l : List (String × Metadata)) (v : Metadata) (k : String)
    (h : dictGet (reverseDict l) v = some (some k)) :
    l.filter (fun kv => kv.2 = v) = [(k, v)] := by
  rw [dictGet_reverseDict] at h
  cases hl : l.filter (fun kv => kv.2 = v) with
  | nil => rw [hl] at h; exact absurd h (by simp)
  | cons a t =>
    cases t with
    | nil =>
      rw [hl] at h
      simp only [Option.some.injEq] at h
      have ha : a ∈ l.filter (fun kv => kv.2 = v) := by rw [hl]; exact List.mem_cons_self _ _
      have : a.2 = v := by simpa using (List.mem_filter.mp ha).2
      have : a = (k, v) := by
        obtain ⟨a1, a2⟩ := a
        simp_all
      rw [this]
    | cons b t2 => rw [hl] at h; exact absurd h (by simp)

/-- Two distinct entries sharing a signature rule out any unique reverse-index
hit for it: ambiguity is total. -/
theorem reverseDict_ambig (l : List (String × Metadata)) (v : Metadata) (p q : String)
    (hp : (p, v) ∈ l) (hq : (q, v) ∈ l) (hpq : p ≠ q) (k : String) :
    dictGet (reverseDict l) v ≠ some (some k) := by
  intro h
  have hf := reverseDict_unique l v k h
  have hp' : (p, v) ∈ l.filter (fun kv => kv.2 = v) := List.mem_filter.mpr ⟨hp, by simp⟩
  have hq' : (q, v) ∈ l.filter (fun kv => kv.2 = v) := List.mem_filter.mpr ⟨hq, by simp⟩
  rw [hf] at hp' hq'
  simp only [List.mem_singleton, Prod.mk.injEq] at hp' hq'
  exact hpq (hp'.1.trans hq'.1.symm)

/-- Membership in the worklist dict comprehension. -/
theorem mem_onlyAssoc (fl : FileList) (only : List String) (p : String) (m : Metadata) :
    (p, m) ∈ onlyAssoc fl only ↔
      p ∈ only ∧ dictGet fl.relpath_to_stats p = some m := by
  unfold onlyAssoc
  rw [List.mem_filterMap]
  constructor
  · rintro ⟨a, ha, hm⟩
    rw [Option.map_eq_some'] at hm
    obtain ⟨m', hm', he⟩ := hm
    obtain ⟨rfl, rfl⟩ := Prod.mk.injEq .. ▸ he
    injection he with h1 h2
    exact ⟨h1 ▸ ha, h1 ▸ hm'⟩
  · rintro ⟨hp, hm⟩
    exact ⟨p, hp, by rw [hm]; rfl⟩

theorem mem_keys_dictGet (l : List (String × Metadata)) (p : String)
    (h : p ∈ keys l) : ∃ m, dictGet l p = some m := by
  induction l with
  | nil => simp [keys] at h
  | cons kv l ih =>
    by_cases hk : kv.1 = p
    · exact ⟨kv.2, by simp [dictGet, hk]⟩
    · simp only [keys, List.map_cons, List.mem_cons] at h
      rcases h with h | h
      · exact absurd h.symm hk
      · simpa [dictGet, hk] using ih h

/-- The emission phase of an operation, numbered in the order `_operations`
produces them: directory deletions, renames, deletions, creations, updates,
directory creations. -/
def Op.phase : Op → Nat
  | .deleteDir .. => 0
  | .rename .. => 1
  | .delete .. => 2
  | .create .. => 3
  | .update .. => 4
  | .createDir .. => 5

theorem mem_deleteDirOps (srcF dstF : FileList) (op : Op)
    (h : op ∈ deleteDirOps srcF dstF) :
    ∃ rel, rel ∈ dstF.empty_dirs ∧ ¬ rel ∈ srcF.empty_dirs ∧
      op = Op.deleteDir (joinPath dstF.root (realName dstF rel)) 0
        ("- " ++ realName dstF rel ++ "/") := by
  unfold deleteDirOps at h
  rw [List.mem_map] at h
  obtain ⟨rel, hrel, rfl⟩ := h
  rw [List.mem_filter] at hrel
  exact ⟨rel, hrel.1, by simpa using hrel.2, rfl⟩

theorem decideEmit_shape (srcF dstF : FileList) (rt : Int) (mo : Bool)
    (lb : String → List Nat) (srcRev dstRev : List (Metadata × Option String))
    (x : String) (op : Op) (h : decideEmit srcF dstF rt mo lb srcRev dstRev x = some op) :
    ∃ a b s, op = Op.rename a b 0 s := by
  unfold decideEmit at h
  cases hd : renameDecide srcF dstF rt mo lb srcRev dstRev x with
  | none => rw [hd] at h; exact absurd h (by simp)
  | some d =>
    obtain ⟨f, t, e⟩ := d
    cases e with
    | none => rw [hd] at h; exact absurd h (by simp)
    | some rr =>
      obtain ⟨rf, rt2⟩ := rr
      rw [hd] at h
      simp only [Option.some.injEq] at h
      exact ⟨_, _, _, h.symm⟩

/-- The rename phase with a `None` threshold does nothing. -/
theorem renameState_none (srcF dstF : FileList) (mo : Bool) (lb : String → List Nat) :
    renameState srcF dstF none mo lb =
      { srcOnly := srcOnlyList srcF dstF, dstOnly := dstOnlyList srcF dstF,
        pairs := [], ops := [] } := rfl

/-- The rename phase with a threshold, characterized iteration by iteration. -/
theorem renameState_some_ops (srcF dstF : FileList) (rt : Int) (mo : Bool)
    (lb : String → List Nat) :
    (renameState srcF dstF (some rt) mo lb).ops =
      (dstOnlyList srcF dstF).filterMap
        (decideEmit srcF dstF rt mo lb
          (reverseDict (onlyAssoc srcF (srcOnlyList srcF dstF)))
          (reverseDict (onlyAssoc dstF (dstOnlyList srcF dstF)))) := by
  unfold renameState renamePhase
  rw [foldl_renameStep_ops]
  rfl

theorem renameState_some_pairs (srcF dstF : FileList) (rt : Int) (mo : Bool)
    (lb : String → List Nat) :
    (renameState srcF dstF (some rt) mo lb).pairs =
      (dstOnlyList srcF dstF).filterMap
        (decidePair srcF dstF rt mo lb
          (reverseDict (onlyAssoc srcF (srcOnlyList srcF dstF)))
          (reverseDict (onlyAssoc dstF (dstOnlyList srcF dstF)))) := by
  unfold renameState renamePhase
  rw [foldl_renameStep_pairs]
  rfl

theorem renameState_ops_shape (srcF dstF : FileList) (rt : Option Int) (mo : Bool)
    (lb : String → List Nat) (op : Op)
    (h : op ∈ (renameState srcF dstF rt mo lb).ops) :
    ∃ a b s, op = Op.rename a b 0 s := by
  cases rt with
  | none => rw [renameState_none] at h; exact absurd h (by simp)
  | some rt =>
    rw [renameState_some_ops] at h
    rw [List.mem_filterMap] at h
    obtain ⟨x, _, hx⟩ := h
    exact decideEmit_shape _ _ _ _ _ _ _ _ _ hx

theorem renameState_srcOnly_subset (srcF dstF : FileList) (rt : Option Int) (mo : Bool)
    (lb : String → List Nat) :
    (renameState srcF dstF rt mo lb).srcOnly ⊆ srcOnlyList srcF dstF := by
  cases rt with
  | none => rw [renameState_none]; exact fun _ h => h
  | some rt => exact foldl_renameStep_srcOnly_subset _ _ _ _ _ _ _ _ _

theorem renameState_dstOnly_subset (srcF dstF : FileList) (rt : Option Int) (mo : Bool)
    (lb : String → List Nat) :
    (renameState srcF dstF rt mo lb).dstOnly ⊆ dstOnlyList srcF dstF := by
  cases rt with
  | none => rw [renameState_none]; exact fun _ h => h
  | some rt => exact foldl_renameStep_dstOnly_subset _ _ _ _ _ _ _ _ _

theorem srcOnlyList_subset_keys (srcF dstF : FileList) :
    srcOnlyList srcF dstF ⊆ keys srcF.relpath_to_stats := by
  intro p hp
  unfold srcOnlyList at hp
  rw [mem_sortStr, List.mem_filter] at hp
  exact hp.1

theorem dstOnlyList_subset_keys (srcF dstF : FileList) :
    dstOnlyList srcF dstF ⊆ keys dstF.relpath_to_stats := by
  intro p hp
  unfold dstOnlyList at hp
  rw [mem_sortStr, List.mem_filter] at hp
  exact hp.1

theorem mem_deleteOps (dstF : FileList) (tr : Option String) (only : List String)
    (op : Op) (h : op ∈ deleteOps dstF tr only) :
    ∃ tr0 p, tr = some tr0 ∧ p ∈ only ∧
      op = Op.delete (joinPath dstF.root (realName dstF p))
        (joinPath tr0 (realName dstF p))
        (-(((dictGet dstF.relpath_to_stats p).getD ⟨0, 0⟩).size : Int))
        ("- " ++ realName dstF p) := by
  unfold deleteOps at h
  cases tr with
  | none => exact absurd h (by simp)
  | some tr0 =>
    simp only at h
    rw [List.mem_map] at h
    obtain ⟨p, hp, rfl⟩ := h
    exact ⟨tr0, p, rfl, hp, rfl⟩

theorem mem_createOps (srcF dstF : FileList) (only : List String) (op : Op)
    (h : op ∈ createOps srcF dstF only) :
    ∃ p, p ∈ only ∧
      op = Op.create (joinPath srcF.root (realName srcF p))
        (joinPath dstF.root (realName srcF p))
        ((((dictGet srcF.relpath_to_stats p).getD ⟨0, 0⟩).size : Int))
        ("+ " ++ realName srcF p) := by
  unfold createOps at h
  rw [List.mem_map] at h
  obtain ⟨p, hp, rfl⟩ := h
  exact ⟨p, hp, rfl⟩

theorem mem_updateOps (srcF dstF : FileList) (op : Op)
    (h : op ∈ updateOps srcF dstF) :
    ∃ p ms md, p ∈ bothList srcF dstF ∧
      dictGet srcF.relpath_to_stats p = some ms ∧
      dictGet dstF.relpath_to_stats p = some md ∧ md.mtime < ms.mtime ∧
      op = Op.update (joinPath srcF.root (realName srcF p))
        (joinPath dstF.root (realName dstF p))
        ((ms.size : Int) - (md.size : Int)) ("U " ++ realName dstF p) := by
  unfold updateOps at h
  rw [List.mem_filterMap] at h
  obtain ⟨p, hp, hx⟩ := h
  cases hs : dictGet srcF.relpath_to_stats p with
  | none => rw [hs] at hx; exact absurd hx (by simp)
  | some ms =>
    cases hd : dictGet dstF.relpath_to_stats p with
    | none => rw [hs, hd] at hx; exact absurd hx (by simp)
    | some md =>
      rw [hs, hd] at hx
      simp only at hx
      by_cases hm : md.mtime < ms.mtime
      · rw [if_pos hm] at hx
        simp only [Option.some.injEq] at hx
        exact ⟨p, ms, md, hp, hs, hd, hm, hx.symm⟩
      · rw [if_neg hm] at hx
        exact absurd hx (by simp)

theorem mem_createDirOps (srcF dstF : FileList) (op : Op)
    (h : op ∈ createDirOps srcF dstF) :
    ∃ rel, rel ∈ srcF.empty_dirs ∧ ¬ rel ∈ dstF.empty_dirs ∧
      op = Op.createDir (joinPath dstF.root (realName srcF rel)) 0
        ("+ " ++ realName srcF rel ++ "/") := by
  unfold createDirOps at h
  rw [List.mem_map] at h
  obtain ⟨rel, hrel, rfl⟩ := h
  rw [List.mem_filter] at hrel
  exact ⟨rel, hrel.1, by simpa using hrel.2, rfl⟩

theorem pairwise_phase_append {L1 L2 : List Op} {k : Nat}
    (h1 : ∀ op ∈ L1, Op.phase op ≤ k) (h2 : ∀ op ∈ L2, k ≤ Op.phase op)
    (p1 : L1.Pairwise fun a b => Op.phase a ≤ Op.phase b)
    (p2 : L2.Pairwise fun a b => Op.phase a ≤ Op.phase b) :
    (L1 ++ L2).Pairwise fun a b => Op.phase a ≤ Op.phase b :=
  List.pairwise_append.mpr ⟨p1, p2, fun a ha b hb => (h1 a ha).trans (h2 b hb)⟩

theorem pairwise_phase_const {L : List Op} {k : Nat} (h : ∀ op ∈ L, Op.phase op = k) :
    L.Pairwise fun a b => Op.phase a ≤ Op.phase b :=
  List.pairwise_of_forall_mem_list fun a ha b hb => by rw [h a ha, h b hb]

theorem phase_deleteDirOps (srcF dstF : FileList) (op : Op)
    (h : op ∈ deleteDirOps srcF dstF) : Op.phase op = 0 := by
  obtain ⟨rel, _, _, rfl⟩ := mem_deleteDirOps srcF dstF op h
  rfl

theorem phase_renameOps (srcF dstF : FileList) (rt : Option Int) (mo : Bool)
    (lb : String → List Nat) (op : Op)
    (h : op ∈ (renameState srcF dstF rt mo lb).ops) : Op.phase op = 1 := by
  obtain ⟨a, b, s, rfl⟩ := renameState_ops_shape srcF dstF rt mo lb op h
  rfl

theorem phase_deleteOps (dstF : FileList) (tr : Option String) (only : List String)
    (op : Op) (h : op ∈ deleteOps dstF tr only) : Op.phase op = 2 := by
  obtain ⟨tr0, p, _, _, rfl⟩ := mem_deleteOps dstF tr only op h
  rfl

theorem phase_createOps (srcF dstF : FileList) (only : List String) (op : Op)
    (h : op ∈ createOps srcF dstF only) : Op.phase op = 3 := by
  obtain ⟨p, _, rfl⟩ := mem_createOps srcF dstF only op h
  rfl

theorem phase_updateOps (srcF dstF : FileList) (op : Op)
    (h : op ∈ updateOps srcF dstF) : Op.phase op = 4 := by
  obtain ⟨p, ms, md, _, _, _, _, rfl⟩ := mem_updateOps srcF dstF op h
  rfl

theorem phase_createDirOps (srcF dstF : FileList) (op : Op)
    (h : op ∈ createDirOps srcF dstF) : Op.phase op = 5 := by
  obtain ⟨rel, _, _, rfl⟩ := mem_createDirOps srcF dstF op h
  rfl

/-- C1: for every pair of snapshots, `_operations` emits operations in
non-decreasing phase order: directory deletions (`D-`), then renames (`R`),
then deletions to quarantine (`-`), then creations (`+`), then updates (`U`),
and last directory creations (`D+`); no operation of a later phase ever
precedes one of an earlier phase. -/
theorem claim_C1_phase_order (srcF dstF : FileList) (tr : Option String)
    (rt : Option Int) (mo : Bool) (lb : String → List Nat) :
    (operations srcF dstF tr rt mo lb).Pairwise
      fun a b => Op.phase a ≤ Op.phase b := by
  unfold operations
  simp only
  have h0 := phase_deleteDirOps srcF dstF
  have h1 := phase_renameOps srcF dstF rt mo lb
  have h2 := phase_deleteOps dstF tr (renameState srcF dstF rt mo lb).dstOnly
  have h3 := phase_createOps srcF dstF (renameState srcF dstF rt mo lb).srcOnly
  have h4 := phase_updateOps srcF dstF
  have h5 := phase_createDirOps srcF dstF
  refine pairwise_phase_append (k := 5) ?_ (fun op hop => by rw [h5 op hop])
    ?_ (pairwise_phase_const h5)
  · intro op hop
    rcases List.mem_append.mp hop with hop | hop
    case _ =>
      rcases List.mem_append.mp hop with hop | hop
      case _ =>
        rcases List.mem_append.mp hop with hop | hop
        case _ =>
          rcases List.mem_append.mp hop with hop | hop
          · rw [h0 op hop]; omega
          · rw [h1 op hop]; omega
        case _ => rw [h2 op hop]; omega
      case _ => rw [h3 op hop]; omega
    case _ => rw [h4 op hop]; omega
  · refine pairwise_phase_append (k := 4) ?_ (fun op hop => by rw [h4 op hop])
      ?_ (pairwise_phase_const h4)
    · intro op hop
      rcases List.mem_append.mp hop with hop | hop
      case _ =>
        rcases List.mem_append.mp hop with hop | hop
        case _ =>
          rcases List.mem_append.mp hop with hop | hop
          · rw [h0 op hop]; omega
          · rw [h1 op hop]; omega
        case _ => rw [h2 op hop]; omega
      case _ => rw [h3 op hop]; omega
    · refine pairwise_phase_append (k := 3) ?_ (fun op hop => by rw [h3 op hop])
        ?_ (pairwise_phase_const h3)
      · intro op hop
        rcases List.mem_append.mp hop with hop | hop
        case _ =>
          rcases List.mem_append.mp hop with hop | hop
          · rw [h0 op hop]; omega
          · rw [h1 op hop]; omega
        case _ => rw [h2 op hop]; omega
      · refine pairwise_phase_append (k := 2) ?_ (fun op hop => by rw [h2 op hop])
          ?_ (pairwise_phase_const h2)
        · intro op hop
          rcases List.mem_append.mp hop with hop | hop
          · rw [h0 op hop]; omega
          · rw [h1 op hop]; omega
        · exact pairwise_phase_append (k := 1)
            (fun op hop => by rw [h0 op hop]; omega)
            (fun op hop => by rw [h1 op hop])
            (pairwise_phase_const h0) (pairwise_phase_const h1)

/-- The byte delta each operation kind is required to carry: a creation adds
the source size, an update adds source size minus destination size, a deletion
to quarantine subtracts the destination size, and renames and directory
operations contribute zero. -/
def DeltaSpec (srcF dstF : FileList) : Op → Prop
  | .deleteDir _ δ _ => δ = 0
  | .rename _ _ δ _ => δ = 0
  | .createDir _ δ _ => δ = 0
  | .delete s2 _ δ _ => ∃ p m, dictGet dstF.relpath_to_stats p = some m ∧
      δ = -(m.size : Int) ∧ s2 = joinPath dstF.root (realName dstF p)
  | .create s2 _ δ _ => ∃ p m, dictGet srcF.relpath_to_stats p = some m ∧
      δ = (m.size : Int) ∧ s2 = joinPath srcF.root (realName srcF p)
  | .update s2 _ δ _ => ∃ p ms md, dictGet srcF.relpath_to_stats p = some ms ∧
      dictGet dstF.relpath_to_stats p = some md ∧
      δ = (ms.size : Int) - (md.size : Int) ∧
      s2 = joinPath srcF.root (realName srcF p)

/-- C9: every emitted operation carries the specified byte-count delta: a
`Create` carries the source file size, an `Update` carries source size minus
destination size, a `Delete` carries minus the destination file size, and
every `Rename`, `CreateDir` and `DeleteDir` carries exactly zero. -/
theorem claim_C9_byte_deltas (srcF dstF : FileList) (tr : Option String)
    (rt : Option Int) (mo : Bool) (lb : String → List Nat) :
    ∀ op ∈ operations srcF dstF tr rt mo lb, DeltaSpec srcF dstF op := by
  intro op hop
  unfold operations at hop
  simp only [List.append_assoc, List.mem_append] at hop
  rcases hop with hop | hop | hop | hop | hop | hop
  · obtain ⟨rel, _, _, rfl⟩ := mem_deleteDirOps srcF dstF op hop
    exact rfl
  · obtain ⟨a, b, s, rfl⟩ := renameState_ops_shape srcF dstF rt mo lb op hop
    exact rfl
  · obtain ⟨tr0, p, _, hmem, rfl⟩ :=
      mem_deleteOps dstF tr (renameState srcF dstF rt mo lb).dstOnly op hop
    have hk : p ∈ keys dstF.relpath_to_stats :=
      dstOnlyList_subset_keys srcF dstF
        (renameState_dstOnly_subset srcF dstF rt mo lb hmem)
    obtain ⟨m, hm⟩ := mem_keys_dictGet _ _ hk
    exact ⟨p, m, hm, by rw [hm]; rfl, rfl⟩
  · obtain ⟨p, hmem, rfl⟩ :=
      mem_createOps srcF dstF (renameState srcF dstF rt mo lb).srcOnly op hop
    have hk : p ∈ keys srcF.relpath_to_stats :=
      srcOnlyList_subset_keys srcF dstF
        (renameState_srcOnly_subset srcF dstF rt mo lb hmem)
    obtain ⟨m, hm⟩ := mem_keys_dictGet _ _ hk
    exact ⟨p, m, hm, by rw [hm]; rfl, rfl⟩
  · obtain ⟨p, ms, md, _, hs, hd, _, rfl⟩ := mem_updateOps srcF dstF op hop
    exact ⟨p, ms, md, hs, hd, rfl, rfl⟩
  · obtain ⟨rel, _, _, rfl⟩ := mem_createDirOps srcF dstF op hop
    exact rfl

/-- With `metadata_only = True`, one loop iteration never consults the file
contents oracle. -/
theorem renameStep_metadata_only (srcF dstF : FileList) (rt : Int)
    (lb1 lb2 : String → List Nat) (srcRev dstRev : List (Metadata × Option String))
    (st : RenameState) (x : String) :
    renameStep srcF dstF rt true lb1 srcRev dstRev st x =
      renameStep srcF dstF rt true lb2 srcRev dstRev st x := by
  rw [renameStep_eq, renameStep_eq]
  have hd : renameDecide srcF dstF rt true lb1 srcRev dstRev x =
      renameDecide srcF dstF rt true lb2 srcRev dstRev x := by
    unfold renameDecide
    cases dictGet dstF.relpath_to_stats x with
    | none => rfl
    | some stats =>
      simp only
      split
      · rfl
      · cases dictGet srcRev stats with
        | none => rfl
        | some o =>
          cases o with
          | none => rfl
          | some rename_to =>
            simp only
            cases dictGet dstRev stats with
            | none => rfl
            | some o2 =>
              cases o2 with
              | none => rfl
              | some rename_from =>
                simp only
                rw [if_neg (by simp), if_neg (by simp)]
  rw [hd]

/-- C3 (amended): with content verification disabled (`metadata_only`), the
planner is a pure function of its two snapshots and parameters: the emitted
sequence does not depend on the file-contents oracle at all. -/
theorem claim_C3_amended_pure_when_metadata_only (srcF dstF : FileList)
    (tr : Option String) (rt : Option Int) (lb1 lb2 : String → List Nat) :
    operations srcF dstF tr rt true lb1 = operations srcF dstF tr rt true lb2 := by
  have hst : renameState srcF dstF rt true lb1 = renameState srcF dstF rt true lb2 := by
    cases rt with
    | none => rfl
    | some rt =>
      unfold renameState renamePhase
      simp only
      exact List.foldl_ext _ _ _ fun st x _ =>
        renameStep_metadata_only srcF dstF rt lb1 lb2 _ _ st x
  unfold operations
  rw [hst]

/-- A source snapshot with a single file `n` of signature `(20000, 1)`. -/
def srcC3 : FileList where
  root := "s"
  relpath_to_stats := [("n", ⟨20000, 1⟩)]
  real_names := [("n", "n")]
  empty_dirs := []

/-- A destination snapshot with a single file `o` of the same signature. -/
def dstC3 : FileList where
  root := "d"
  relpath_to_stats := [("o", ⟨20000, 1⟩)]
  real_names := [("o", "o")]
  empty_dirs := []

/-- C3 (counterexample): with content verification enabled
(`metadata_only = False`, the default), the planner reads file contents
(`_last_bytes`) from the filesystem, and two filesystem states with the very
same snapshots yield different operation sequences — so the plan is not a pure
function of the snapshots alone. -/
theorem claim_C3_counterexample_content_dependence :
    operations srcC3 dstC3 (some "t") (some 10000) false (fun _ => []) ≠
      operations srcC3 dstC3 (some "t") (some 10000) false
        (fun p => if p = "s/n" then [1] else []) := by
  decide

theorem string_append_left_cancel {s a b : String} (h : s ++ a = s ++ b) : a = b := by
  have hd : (s ++ a).data = (s ++ b).data := by rw [h]
  rw [String.data_append, String.data_append] at hd
  exact String.ext (List.append_cancel_left hd)

theorem dictGet_mem_keys (l : List (String × Metadata)) (p : String) (m : Metadata)
    (h : dictGet l p = some m) : p ∈ keys l := by
  induction l with
  | nil => exact absurd h (by simp [dictGet_nil])
  | cons kv l ih =>
    rw [dictGet_cons] at h
    by_cases hk : kv.1 = p
    · exact hk ▸ List.mem_cons_self _ _
    · rw [if_neg hk] at h
      exact List.mem_cons_of_mem _ (ih h)

theorem mem_bothList (srcF dstF : FileList) (p : String) :
    p ∈ bothList srcF dstF ↔
      p ∈ keys srcF.relpath_to_stats ∧ p ∈ keys dstF.relpath_to_stats := by
  unfold bothList
  rw [mem_sortStr, List.mem_filter]
  simp

theorem mem_srcOnlyList (srcF dstF : FileList) (p : String) :
    p ∈ srcOnlyList srcF dstF ↔
      p ∈ keys srcF.relpath_to_stats ∧ ¬ p ∈ keys dstF.relpath_to_stats := by
  unfold srcOnlyList
  rw [mem_sortStr, List.mem_filter]
  simp

theorem mem_dstOnlyList (srcF dstF : FileList) (p : String) :
    p ∈ dstOnlyList srcF dstF ↔
      p ∈ keys dstF.relpath_to_stats ∧ ¬ p ∈ keys srcF.relpath_to_stats := by
  unfold dstOnlyList
  rw [mem_sortStr, List.mem_filter]
  simp

/-- Splitting membership in the emitted plan into its six phases. -/
theorem mem_operations_iff (srcF dstF : FileList) (tr : Option String)
    (rt : Option Int) (mo : Bool) (lb : String → List Nat) (op : Op) :
    op ∈ operations srcF dstF tr rt mo lb ↔
      op ∈ deleteDirOps srcF dstF ∨
      op ∈ (renameState srcF dstF rt mo lb).ops ∨
      op ∈ deleteOps dstF tr (renameState srcF dstF rt mo lb).dstOnly ∨
      op ∈ createOps srcF dstF (renameState srcF dstF rt mo lb).srcOnly ∨
      op ∈ updateOps srcF dstF ∨
      op ∈ createDirOps srcF dstF := by
  unfold operations
  simp only [List.append_assoc, List.mem_append]

/-- The static conditions under which one loop iteration decides anything. -/
theorem renameDecide_some_spec (srcF dstF : FileList) (rt : Int) (mo : Bool)
    (lb : String → List Nat) (srcRev dstRev : List (Metadata × Option String))
    (x f t : String) (e : Option (String × String))
    (h : renameDecide srcF dstF rt mo lb srcRev dstRev x = some (f, t, e)) :
    ∃ stats, dictGet dstF.relpath_to_stats x = some stats ∧
      ¬ ((stats.size : Int) < rt) ∧
      dictGet srcRev stats = some (some t) ∧
      dictGet dstRev stats = some (some f) := by
  unfold renameDecide at h
  cases hs : dictGet dstF.relpath_to_stats x with
  | none => rw [hs] at h; exact absurd h (by simp)
  | some stats =>
    rw [hs] at h
    simp only at h
    by_cases hsize : (stats.size : Int) < rt
    · rw [if_pos hsize] at h; exact absurd h (by simp)
    · rw [if_neg hsize] at h
      cases hsr : dictGet srcRev stats with
      | none => rw [hsr] at h; exact absurd h (by simp)
      | some o =>
        cases o with
        | none => rw [hsr] at h; exact absurd h (by simp)
        | some rename_to =>
          rw [hsr] at h
          simp only at h
          cases hdr : dictGet dstRev stats with
          | none => rw [hdr] at h; exact absurd h (by simp)
          | some o2 =>
            cases o2 with
            | none => rw [hdr] at h; exact absurd h (by simp)
            | some rename_from =>
              rw [hdr] at h
              simp only at h
              refine ⟨stats, rfl, hsize, ?_, ?_⟩
              · split at h
                · exact absurd h (by simp)
                · split at h <;>
                    · simp only [Option.some.injEq, Prod.mk.injEq] at h
                      rw [hsr, h.2.1]
              · split at h
                · exact absurd h (by simp)
                · split at h <;>
                    · simp only [Option.some.injEq, Prod.mk.injEq] at h
                      rw [hdr, h.1]

/-- When an iteration emits, the recorded real names are the dictionary hits. -/
theorem renameDecide_emit_spec (srcF dstF : FileList) (rt : Int) (mo : Bool)
    (lb : String → List Nat) (srcRev dstRev : List (Metadata × Option String))
    (x f t rf rt2 : String)
    (h : renameDecide srcF dstF rt mo lb srcRev dstRev x = some (f, t, some (rf, rt2))) :
    dictGet dstF.real_names f = some rf ∧ dictGet srcF.real_names t = some rt2 := by
  unfold renameDecide at h
  cases hs : dictGet dstF.relpath_to_stats x with
  | none => rw [hs] at h; exact absurd h (by simp)
  | some stats =>
    rw [hs] at h
    simp only at h
    split at h
    · exact absurd h (by simp)
    · cases hsr : dictGet srcRev stats with
      | none => rw [hsr] at h; exact absurd h (by simp)
      | some o =>
        cases o with
        | none => rw [hsr] at h; exact absurd h (by simp)
        | some rename_to =>
          rw [hsr] at h
          simp only at h
          cases hdr : dictGet dstRev stats with
          | none => rw [hdr] at h; exact absurd h (by simp)
          | some o2 =>
            cases o2 with
            | none => rw [hdr] at h; exact absurd h (by simp)
            | some rename_from =>
              rw [hdr] at h
              simp only at h
              split at h
              · exact absurd h (by simp)
              · cases hrn1 : dictGet dstF.real_names rename_from with
                | none => rw [hrn1] at h; exact absurd h (by simp)
                | some rf0 =>
                  cases hrn2 : dictGet srcF.real_names rename_to with
                  | none => rw [hrn1, hrn2] at h; exact absurd h (by simp)
                  | some rt0 =>
                    rw [hrn1, hrn2] at h
                    simp only [Option.some.injEq, Prod.mk.injEq] at h
                    obtain ⟨hf, hrest⟩ := h
                    obtain ⟨ht, hrf, hrt⟩ := hrest
                    exact ⟨by rw [← hf, hrn1, hrf], by rw [← ht, hrn2, hrt]⟩

theorem decidePair_some (srcF dstF : FileList) (rt : Int) (mo : Bool)
    (lb : String → List Nat) (srcRev dstRev : List (Metadata × Option String))
    (x f t : String)
    (h : decidePair srcF dstF rt mo lb srcRev dstRev x = some (f, t)) :
    ∃ rr, renameDecide srcF dstF rt mo lb srcRev dstRev x = some (f, t, some rr) := by
  unfold decidePair at h
  cases hd : renameDecide srcF dstF rt mo lb srcRev dstRev x with
  | none => rw [hd] at h; exact absurd h (by simp)
  | some d =>
    obtain ⟨f0, t0, e⟩ := d
    cases e with
    | none => rw [hd] at h; exact absurd h (by simp)
    | some rr =>
      rw [hd] at h
      simp only [Option.some.injEq, Prod.mk.injEq] at h
      exact ⟨rr, by rw [h.1, h.2]⟩

theorem decideEmit_of_decide (srcF dstF : FileList) (rt : Int) (mo : Bool)
    (lb : String → List Nat) (srcRev dstRev : List (Metadata × Option String))
    (x f t rf rt2 : String)
    (h : renameDecide srcF dstF rt mo lb srcRev dstRev x = some (f, t, some (rf, rt2))) :
    decideEmit srcF dstF rt mo lb srcRev dstRev x =
      some (Op.rename (joinPath dstF.root rf) (joinPath dstF.root rt2) 0
        ("R " ++ rf ++ " -> " ++ rt2)) ∧
    decidePair srcF dstF rt mo lb srcRev dstRev x = some (f, t) := by
  unfold decideEmit decidePair
  rw [h]
  exact ⟨rfl, rfl⟩

/-- C2: rename ambiguity is total. If a metadata signature is shared by two
distinct source-only files, or by two distinct destination-only files, then no
file carrying that signature takes part in any emitted `Rename`: every
recorded rename pair avoids the signature on both sides, and every `Rename`
operation in the plan arises from such a recorded pair. -/
theorem claim_C2_rename_ambiguity_total (srcF dstF : FileList) (tr : Option String)
    (rt : Int) (mo : Bool) (lb : String → List Nat) (sig : Metadata) (p q : String)
    (hpq : p ≠ q)
    (hcase : (p ∈ srcOnlyList srcF dstF ∧ q ∈ srcOnlyList srcF dstF ∧
              dictGet srcF.relpath_to_stats p = some sig ∧
              dictGet srcF.relpath_to_stats q = some sig) ∨
             (p ∈ dstOnlyList srcF dstF ∧ q ∈ dstOnlyList srcF dstF ∧
              dictGet dstF.relpath_to_stats p = some sig ∧
              dictGet dstF.relpath_to_stats q = some sig)) :
    (∀ f t, (f, t) ∈ (renameState srcF dstF (some rt) mo lb).pairs →
       dictGet dstF.relpath_to_stats f ≠ some sig ∧
       dictGet srcF.relpath_to_stats t ≠ some sig) ∧
    (∀ op ∈ operations srcF dstF tr (some rt) mo lb, ∀ a b δ sm,
       op = Op.rename a b δ sm →
       ∃ f t, (f, t) ∈ (renameState srcF dstF (some rt) mo lb).pairs ∧
         op = Op.rename (joinPath dstF.root (realName dstF f))
           (joinPath dstF.root (realName srcF t)) 0
           ("R " ++ realName dstF f ++ " -> " ++ realName srcF t)) := by
  constructor
  · intro f t hmem
    rw [renameState_some_pairs, List.mem_filterMap] at hmem
    obtain ⟨x, hx, hdec⟩ := hmem
    obtain ⟨rr, hrd⟩ := decidePair_some _ _ _ _ _ _ _ _ _ _ hdec
    obtain ⟨stats, hstats, hsize, hsr, hdr⟩ :=
      renameDecide_some_spec _ _ _ _ _ _ _ _ _ _ _ hrd
    have hfmem : (f, stats) ∈ onlyAssoc dstF (dstOnlyList srcF dstF) := by
      have hu := reverseDict_unique _ _ _ hdr
      have hmem2 : (f, stats) ∈
          (onlyAssoc dstF (dstOnlyList srcF dstF)).filter (fun kv => kv.2 = stats) := by
        rw [hu]; exact List.mem_singleton.mpr rfl
      exact (List.mem_filter.mp hmem2).1
    have htmem : (t, stats) ∈ onlyAssoc srcF (srcOnlyList srcF dstF) := by
      have hu := reverseDict_unique _ _ _ hsr
      have hmem2 : (t, stats) ∈
          (onlyAssoc srcF (srcOnlyList srcF dstF)).filter (fun kv => kv.2 = stats) := by
        rw [hu]; exact List.mem_singleton.mpr rfl
      exact (List.mem_filter.mp hmem2).1
    have hfstat : dictGet dstF.relpath_to_stats f = some stats :=
      ((mem_onlyAssoc _ _ _ _).mp hfmem).2
    have htstat : dictGet srcF.relpath_to_stats t = some stats :=
      ((mem_onlyAssoc _ _ _ _).mp htmem).2
    have hblock : stats ≠ sig := by
      intro hss
      subst hss
      rcases hcase with ⟨hp1, hq1, hp2, hq2⟩ | ⟨hp1, hq1, hp2, hq2⟩
      · exact reverseDict_ambig (onlyAssoc srcF (srcOnlyList srcF dstF)) stats p q
          ((mem_onlyAssoc _ _ _ _).mpr ⟨hp1, hp2⟩)
          ((mem_onlyAssoc _ _ _ _).mpr ⟨hq1, hq2⟩) hpq t hsr
      · exact reverseDict_ambig (onlyAssoc dstF (dstOnlyList srcF dstF)) stats p q
          ((mem_onlyAssoc _ _ _ _).mpr ⟨hp1, hp2⟩)
          ((mem_onlyAssoc _ _ _ _).mpr ⟨hq1, hq2⟩) hpq f hdr
    constructor
    · rw [hfstat]
      exact fun hh => hblock (Option.some.inj hh)
    · rw [htstat]
      exact fun hh => hblock (Option.some.inj hh)
  · intro op hop a b δ sm hshape
    rw [mem_operations_iff] at hop
    rcases hop with hop | hop | hop | hop | hop | hop
    · obtain ⟨rel, _, _, rfl⟩ := mem_deleteDirOps srcF dstF op hop
      exact absurd hshape (by simp)
    · rw [renameState_some_ops, List.mem_filterMap] at hop
      obtain ⟨x, hx, hemit⟩ := hop
      unfold decideEmit at hemit
      cases hd : renameDecide srcF dstF rt mo lb
          (reverseDict (onlyAssoc srcF (srcOnlyList srcF dstF)))
          (reverseDict (onlyAssoc dstF (dstOnlyList srcF dstF))) x with
      | none => rw [hd] at hemit; exact absurd hemit (by simp)
      | some d =>
        obtain ⟨f, t, e⟩ := d
        cases e with
        | none => rw [hd] at hemit; exact absurd hemit (by simp)
        | some rr =>
          obtain ⟨rf, rt2⟩ := rr
          rw [hd] at hemit
          simp only [Option.some.injEq] at hemit
          obtain ⟨hrf, hrt2⟩ := renameDecide_emit_spec _ _ _ _ _ _ _ _ _ _ _ _ hd
          refine ⟨f, t, ?_, ?_⟩
          · rw [renameState_some_pairs, List.mem_filterMap]
            exact ⟨x, hx, (decideEmit_of_decide _ _ _ _ _ _ _ _ _ _ _ _ hd).2⟩
          · rw [← hemit]
            unfold realName
            rw [hrf, hrt2]
            rfl
    · obtain ⟨tr0, p0, _, _, rfl⟩ := mem_deleteOps _ _ _ op hop
      exact absurd hshape (by simp)
    · obtain ⟨p0, _, rfl⟩ := mem_createOps _ _ _ op hop
      exact absurd hshape (by simp)
    · obtain ⟨p0, ms, md, _, _, _, _, rfl⟩ := mem_updateOps _ _ op hop
      exact absurd hshape (by simp)
    · obtain ⟨rel, _, _, rfl⟩ := mem_createDirOps _ _ op hop
      exact absurd hshape (by simp)

theorem mem_updateWarnings (srcF dstF : FileList) (w : String)
    (h : w ∈ updateWarnings srcF dstF) :
    ∃ p ms md, p ∈ bothList srcF dstF ∧
      dictGet srcF.relpath_to_stats p = some ms ∧
      dictGet dstF.relpath_to_stats p = some md ∧ ms.mtime < md.mtime ∧
      w = "Working copy is older than backed-up copy, skipping update: " ++ p := by
  unfold updateWarnings at h
  rw [List.mem_filterMap] at h
  obtain ⟨p, hp, hx⟩ := h
  cases hs : dictGet srcF.relpath_to_stats p with
  | none => rw [hs] at hx; exact absurd hx (by simp)
  | some ms =>
    cases hd : dictGet dstF.relpath_to_stats p with
    | none => rw [hs, hd] at hx; exact absurd hx (by simp)
    | some md =>
      rw [hs, hd] at hx
      simp only at hx
      by_cases hm : ms.mtime < md.mtime
      · rw [if_pos hm] at hx
        simp only [Option.some.injEq] at hx
        exact ⟨p, ms, md, hp, hs, hd, hm, hx.symm⟩
      · rw [if_neg hm] at hx
        exact absurd hx (by simp)

/-- C7: for a path present in both snapshots, the planner emits an `Update`
exactly when the source modification time is strictly greater than the
destination's, and logs the destination-is-newer anomaly exactly when the
destination's is strictly greater; when the times are equal it emits neither.
(`hinj` rules out a second common path rendering to the same real name, which
cannot happen for snapshots produced by a scan.) -/
theorem claim_C7_update_only_when_newer (srcF dstF : FileList) (tr : Option String)
    (rt : Option Int) (mo : Bool) (lb : String → List Nat) (p : String)
    (ms md : Metadata)
    (hs : dictGet srcF.relpath_to_stats p = some ms)
    (hd : dictGet dstF.relpath_to_stats p = some md)
    (hinj : ∀ q ∈ bothList srcF dstF, realName dstF q = realName dstF p → q = p) :
    (Op.update (joinPath srcF.root (realName srcF p))
        (joinPath dstF.root (realName dstF p))
        ((ms.size : Int) - (md.size : Int)) ("U " ++ realName dstF p) ∈
      operations srcF dstF tr rt mo lb ↔ md.mtime < ms.mtime) ∧
    (("Working copy is older than backed-up copy, skipping update: " ++ p) ∈
        updateWarnings srcF dstF ↔ ms.mtime < md.mtime) := by
  have hpboth : p ∈ bothList srcF dstF :=
    (mem_bothList srcF dstF p).mpr
      ⟨dictGet_mem_keys _ _ _ hs, dictGet_mem_keys _ _ _ hd⟩
  constructor
  · constructor
    · intro hop
      rw [mem_operations_iff] at hop
      rcases hop with hop | hop | hop | hop | hop | hop
      · obtain ⟨rel, _, _, heq⟩ := mem_deleteDirOps srcF dstF _ hop
        exact absurd heq (by simp)
      · obtain ⟨a, b, s2, heq⟩ := renameState_ops_shape srcF dstF rt mo lb _ hop
        exact absurd heq (by simp)
      · obtain ⟨tr0, p0, _, _, heq⟩ := mem_deleteOps _ _ _ _ hop
        exact absurd heq (by simp)
      · obtain ⟨p0, _, heq⟩ := mem_createOps _ _ _ _ hop
        exact absurd heq (by simp)
      · obtain ⟨p0, ms0, md0, hboth0, hs0, hd0, hm0, heq⟩ := mem_updateOps _ _ _ hop
        rw [Op.update.injEq] at heq
        obtain ⟨h1, h2, h3, h4⟩ := heq
        have hreal : realName dstF p0 = realName dstF p :=
          (string_append_left_cancel h4).symm
        have hp0 : p0 = p := hinj p0 hboth0 hreal
        subst hp0
        rw [hs0] at hs
        rw [hd0] at hd
        obtain rfl : ms0 = ms := Option.some.inj hs
        obtain rfl : md0 = md := Option.some.inj hd
        exact hm0
      · obtain ⟨rel, _, _, heq⟩ := mem_createDirOps _ _ _ hop
        exact absurd heq (by simp)
    · intro hm
      rw [mem_operations_iff]
      refine Or.inr (Or.inr (Or.inr (Or.inr (Or.inl ?_))))
      unfold updateOps
      rw [List.mem_filterMap]
      refine ⟨p, hpboth, ?_⟩
      rw [hs, hd]
      simp only
      rw [if_pos hm]
  · constructor
    · intro hw
      obtain ⟨p0, ms0, md0, hboth0, hs0, hd0, hm0, heq⟩ :=
        mem_updateWarnings srcF dstF _ hw
      have hp0 : p0 = p := string_append_left_cancel heq.symm
      subst hp0
      rw [hs0] at hs
      rw [hd0] at hd
      obtain rfl : ms0 = ms := Option.some.inj hs
      obtain rfl : md0 = md := Option.some.inj hd
      exact hm0
    · intro hm
      unfold updateWarnings
      rw [List.mem_filterMap]
      refine ⟨p, hpboth, ?_⟩
      rw [hs, hd]
      simp only
      rw [if_pos hm]

/-- Source side of the rename-ambiguity witness: two files sharing one
signature. -/
def srcW2 : FileList where
  root := "s"
  relpath_to_stats := [("x1", ⟨30000, 7⟩), ("x2", ⟨30000, 7⟩)]
  real_names := [("x1", "x1"), ("x2", "x2")]
  empty_dirs := []

/-- Destination side of the rename-ambiguity witness: one file carrying the
shared signature. -/
def dstW2 : FileList where
  root := "d"
  relpath_to_stats := [("y", ⟨30000, 7⟩)]
  real_names := [("y", "y")]
  empty_dirs := []

theorem claim_C2_witness :
    (∀ f t, (f, t) ∈ (renameState srcW2 dstW2 (some 10) true (fun _ => [])).pairs →
       dictGet dstW2.relpath_to_stats f ≠ some ⟨30000, 7⟩ ∧
       dictGet srcW2.relpath_to_stats t ≠ some ⟨30000, 7⟩) ∧
    (∀ op ∈ operations srcW2 dstW2 (some "t") (some 10) true (fun _ => []),
       ∀ a b δ sm, op = Op.rename a b δ sm →
       ∃ f t, (f, t) ∈ (renameState srcW2 dstW2 (some 10) true (fun _ => [])).pairs ∧
         op = Op.rename (joinPath dstW2.root (realName dstW2 f))
           (joinPath dstW2.root (realName srcW2 t)) 0
           ("R " ++ realName dstW2 f ++ " -> " ++ realName srcW2 t)) :=
  claim_C2_rename_ambiguity_total srcW2 dstW2 (some "t") 10 true (fun _ => [])
    ⟨30000, 7⟩ "x1" "x2" (by decide)
    (Or.inl ⟨by decide, by decide, by decide, by decide⟩)

/-- Source side of the update witness. -/
def srcW7 : FileList where
  root := "s"
  relpath_to_stats := [("u", ⟨5, 10⟩)]
  real_names := [("u", "u")]
  empty_dirs := []

/-- Destination side of the update witness: older and smaller. -/
def dstW7 : FileList where
  root := "d"
  relpath_to_stats := [("u", ⟨3, 7⟩)]
  real_names := [("u", "u")]
  empty_dirs := []

theorem claim_C7_witness :
    (Op.update (joinPath srcW7.root (realName srcW7 "u"))
        (joinPath dstW7.root (realName dstW7 "u"))
        (((5 : Nat) : Int) - ((3 : Nat) : Int)) ("U " ++ realName dstW7 "u") ∈
      operations srcW7 dstW7 none none true (fun _ => []) ↔
        (7 : Int) < 10) ∧
    (("Working copy is older than backed-up copy, skipping update: " ++ "u") ∈
        updateWarnings srcW7 dstW7 ↔ (10 : Int) < 7) :=
  claim_C7_update_only_when_newer srcW7 dstW7 none none true (fun _ => [])
    "u" ⟨5, 10⟩ ⟨3, 7⟩ (by decide) (by decide) (by decide)

theorem filter_onlyAssoc_eq_nil (fl : FileList) (only : List String) (v : Metadata)
    (h : ∀ x ∈ only, ∀ m, dictGet fl.relpath_to_stats x = some m → m ≠ v) :
    (onlyAssoc fl only).filter (fun kv => kv.2 = v) = [] := by
  induction only with
  | nil => rfl
  | cons a l ih =>
    unfold onlyAssoc
    rw [List.filterMap_cons]
    cases ha : dictGet fl.relpath_to_stats a with
    | none => exact ih fun x hx => h x (List.mem_cons_of_mem _ hx)
    | some m =>
      simp only [Option.map_some']
      rw [List.filter_cons]
      have hm : ¬ (m = v) := h a (List.mem_cons_self _ _) m ha
      rw [if_neg (by simpa using hm)]
      exact ih fun x hx => h x (List.mem_cons_of_mem _ hx)

theorem filter_onlyAssoc_unique (fl : FileList) (only : List String)
    (hnd : only.Nodup) (q : String) (v : Metadata)
    (hq : q ∈ only) (hqv : dictGet fl.relpath_to_stats q = some v)
    (huniq : ∀ x ∈ only, dictGet fl.relpath_to_stats x = some v → x = q) :
    (onlyAssoc fl only).filter (fun kv => kv.2 = v) = [(q, v)] := by
  induction only with
  | nil => cases hq
  | cons a l ih =>
    rw [List.nodup_cons] at hnd
    by_cases haq : a = q
    · subst haq
      unfold onlyAssoc
      rw [List.filterMap_cons, hqv]
      simp only [Option.map_some']
      rw [List.filter_cons]
      rw [if_pos (by simp)]
      have : (onlyAssoc fl l).filter (fun kv => kv.2 = v) = [] := by
        apply filter_onlyAssoc_eq_nil
        intro x hx m hm hmv
        subst hmv
        exact hnd.1 ((huniq x (List.mem_cons_of_mem _ hx) hm) ▸ hx)
      unfold onlyAssoc at this
      rw [this]
    · have hql : q ∈ l := by
        rcases List.mem_cons.mp hq with h | h
        · exact absurd h.symm haq
        · exact h
      have hrest := ih hnd.2 hql
        (fun x hx hxv => huniq x (List.mem_cons_of_mem _ hx) hxv)
      unfold onlyAssoc
      rw [List.filterMap_cons]
      cases ha : dictGet fl.relpath_to_stats a with
      | none => exact hrest
      | some m =>
        simp only [Option.map_some']
        rw [List.filter_cons]
        have hm : ¬ (m = v) := fun hmv =>
          haq (huniq a (List.mem_cons_self _ _) (hmv ▸ ha))
        rw [if_neg (by simpa using hm)]
        exact hrest

theorem nodup_sortStr (l : List String) (h : l.Nodup) : (sortStr l).Nodup :=
  (perm_sortStr l).symm.nodup h

theorem nodup_srcOnlyList (srcF dstF : FileList)
    (h : (keys srcF.relpath_to_stats).Nodup) : (srcOnlyList srcF dstF).Nodup :=
  nodup_sortStr _ (List.Nodup.filter _ h)

theorem nodup_dstOnlyList (srcF dstF : FileList)
    (h : (keys dstF.relpath_to_stats).Nodup) : (dstOnlyList srcF dstF).Nodup :=
  nodup_sortStr _ (List.Nodup.filter _ h)

/-- C8: rename eligibility is an inclusive size threshold. (a) A
destination-only file of exactly `renameThreshold` bytes whose signature is
unambiguous on both sides (and passes the content check) is emitted as a
`Rename`; (b) a file one byte smaller never takes part in a rename pair and is
instead planned as an independent delete-to-quarantine (when a trash is
configured) with the matching source-only file planned as an independent
create; (c) with `renameThreshold = None`, no `Rename` is ever emitted. -/
theorem claim_C8_threshold_boundary (srcF dstF : FileList) (tr : Option String)
    (mo : Bool) (lb : String → List Nat) (t : Int)
    (hndS : (keys srcF.relpath_to_stats).Nodup)
    (hndD : (keys dstF.relpath_to_stats).Nodup) :
    (∀ p q sig rp rq,
      dictGet dstF.relpath_to_stats p = some sig →
      dictGet srcF.relpath_to_stats q = some sig →
      (sig.size : Int) = t →
      p ∈ dstOnlyList srcF dstF → q ∈ srcOnlyList srcF dstF →
      (∀ x ∈ srcOnlyList srcF dstF, dictGet srcF.relpath_to_stats x = some sig → x = q) →
      (∀ x ∈ dstOnlyList srcF dstF, dictGet dstF.relpath_to_stats x = some sig → x = p) →
      (mo = true ∨ lb (joinPath srcF.root q) = lb (joinPath dstF.root p)) →
      dictGet dstF.real_names p = some rp →
      dictGet srcF.real_names q = some rq →
      Op.rename (joinPath dstF.root rp) (joinPath dstF.root rq) 0
          ("R " ++ rp ++ " -> " ++ rq) ∈ operations srcF dstF tr (some t) mo lb) ∧
    (∀ p q sig rp rq,
      dictGet dstF.relpath_to_stats p = some sig →
      dictGet srcF.relpath_to_stats q = some sig →
      (sig.size : Int) + 1 = t →
      p ∈ dstOnlyList srcF dstF → q ∈ srcOnlyList srcF dstF →
      dictGet dstF.real_names p = some rp →
      dictGet srcF.real_names q = some rq →
      (∀ f t0, (f, t0) ∈ (renameState srcF dstF (some t) mo lb).pairs →
        f ≠ p ∧ t0 ≠ q) ∧
      (∀ tr0, tr = some tr0 →
        Op.delete (joinPath dstF.root rp) (joinPath tr0 rp) (-(sig.size : Int))
          ("- " ++ rp) ∈ operations srcF dstF tr (some t) mo lb) ∧
      Op.create (joinPath srcF.root rq) (joinPath dstF.root rq) (sig.size : Int)
        ("+ " ++ rq) ∈ operations srcF dstF tr (some t) mo lb) ∧
    (∀ op ∈ operations srcF dstF tr none mo lb, ∀ a b δ sm,
      op ≠ Op.rename a b δ sm) := by
  refine ⟨?_, ?_, ?_⟩
  · intro p q sig rp rq hpd hqs hsize hpo hqo huS huD hcontent hrp hrq
    have hfS : (onlyAssoc srcF (srcOnlyList srcF dstF)).filter
        (fun kv => kv.2 = sig) = [(q, sig)] :=
      filter_onlyAssoc_unique _ _ (nodup_srcOnlyList srcF dstF hndS) q sig hqo hqs huS
    have hfD : (onlyAssoc dstF (dstOnlyList srcF dstF)).filter
        (fun kv => kv.2 = sig) = [(p, sig)] :=
      filter_onlyAssoc_unique _ _ (nodup_dstOnlyList srcF dstF hndD) p sig hpo hpd huD
    have hsr : dictGet (reverseDict (onlyAssoc srcF (srcOnlyList srcF dstF))) sig =
        some (some q) := by rw [dictGet_reverseDict, hfS]
    have hdr : dictGet (reverseDict (onlyAssoc dstF (dstOnlyList srcF dstF))) sig =
        some (some p) := by rw [dictGet_reverseDict, hfD]
    have hdec : renameDecide srcF dstF t mo lb
        (reverseDict (onlyAssoc srcF (srcOnlyList srcF dstF)))
        (reverseDict (onlyAssoc dstF (dstOnlyList srcF dstF))) p =
        some (p, q, some (rp, rq)) := by
      unfold renameDecide
      rw [hpd]
      simp only
      rw [if_neg (by omega)]
      rw [hsr, hdr]
      simp only
      rw [if_neg ?_, hrp, hrq]
      rcases hcontent with hmo | hlb
      · subst hmo; rintro ⟨h1, _⟩; cases h1
      · rintro ⟨_, h2⟩; exact h2 hlb
    rw [mem_operations_iff]
    refine Or.inr (Or.inl ?_)
    rw [renameState_some_ops, List.mem_filterMap]
    exact ⟨p, hpo, (decideEmit_of_decide _ _ _ _ _ _ _ _ _ _ _ _ hdec).1⟩
  · intro p q sig rp rq hpd hqs hsize hpo hqo hrp hrq
    have hnotF : ∀ x f t0 e,
        renameDecide srcF dstF t mo lb
          (reverseDict (onlyAssoc srcF (srcOnlyList srcF dstF)))
          (reverseDict (onlyAssoc dstF (dstOnlyList srcF dstF))) x =
          some (f, t0, e) → f ≠ p := by
      intro x f t0 e hdec hfp
      subst hfp
      obtain ⟨stats, hstats, hst, hsr, hdr⟩ :=
        renameDecide_some_spec _ _ _ _ _ _ _ _ _ _ _ hdec
      have hfmem : (f, stats) ∈ onlyAssoc dstF (dstOnlyList srcF dstF) := by
        have hu := reverseDict_unique _ _ _ hdr
        have hmem2 : (f, stats) ∈
            (onlyAssoc dstF (dstOnlyList srcF dstF)).filter (fun kv => kv.2 = stats) := by
          rw [hu]; exact List.mem_singleton.mpr rfl
        exact (List.mem_filter.mp hmem2).1
      have hfd : dictGet dstF.relpath_to_stats f = some stats :=
        ((mem_onlyAssoc _ _ _ _).mp hfmem).2
      rw [hpd] at hfd
      obtain rfl : sig = stats := Option.some.inj hfd
      omega
    have hnotT : ∀ x f t0 e,
        renameDecide srcF dstF t mo lb
          (reverseDict (onlyAssoc srcF (srcOnlyList srcF dstF)))
          (reverseDict (onlyAssoc dstF (dstOnlyList srcF dstF))) x =
          some (f, t0, e) → t0 ≠ q := by
      intro x f t0 e hdec htq
      subst htq
      obtain ⟨stats, hstats, hst, hsr, hdr⟩ :=
        renameDecide_some_spec _ _ _ _ _ _ _ _ _ _ _ hdec
      have htmem : (t0, stats) ∈ onlyAssoc srcF (srcOnlyList srcF dstF) := by
        have hu := reverseDict_unique _ _ _ hsr
        have hmem2 : (t0, stats) ∈
            (onlyAssoc srcF (srcOnlyList srcF dstF)).filter (fun kv => kv.2 = stats) := by
          rw [hu]; exact List.mem_singleton.mpr rfl
        exact (List.mem_filter.mp hmem2).1
      have hts : dictGet srcF.relpath_to_stats t0 = some stats :=
        ((mem_onlyAssoc _ _ _ _).mp htmem).2
      rw [hqs] at hts
      obtain rfl : sig = stats := Option.some.inj hts
      omega
    refine ⟨?_, ?_, ?_⟩
    · intro f t0 hmem
      rw [renameState_some_pairs, List.mem_filterMap] at hmem
      obtain ⟨x, hx, hdp⟩ := hmem
      obtain ⟨rr, hrd⟩ := decidePair_some _ _ _ _ _ _ _ _ _ _ hdp
      exact ⟨hnotF x f t0 _ hrd, hnotT x f t0 _ hrd⟩
    · intro tr0 htr
      subst htr
      have hpfinal : p ∈ (renameState srcF dstF (some t) mo lb).dstOnly := by
        unfold renameState renamePhase
        simp only
        exact foldl_renameStep_dstOnly_mem _ _ _ _ _ _ _ _ _ p hpo
          fun x _ f t0 e hdec => hnotF x f t0 e hdec
      rw [mem_operations_iff]
      refine Or.inr (Or.inr (Or.inl ?_))
      unfold deleteOps
      simp only
      rw [List.mem_map]
      refine ⟨p, hpfinal, ?_⟩
      unfold realName
      rw [hrp, hpd]
      rfl
    · have hqfinal : q ∈ (renameState srcF dstF (some t) mo lb).srcOnly := by
        unfold renameState renamePhase
        simp only
        exact foldl_renameStep_srcOnly_mem _ _ _ _ _ _ _ _ _ q hqo
          fun x _ f t0 e hdec => hnotT x f t0 e hdec
      rw [mem_operations_iff]
      refine Or.inr (Or.inr (Or.inr (Or.inl ?_)))
      unfold createOps
      rw [List.mem_map]
      refine ⟨q, hqfinal, ?_⟩
      unfold realName
      rw [hrq, hqs]
      rfl
  · intro op hop a b δ sm hshape
    subst hshape
    rw [mem_operations_iff] at hop
    rcases hop with hop | hop | hop | hop | hop | hop
    · obtain ⟨rel, _, _, heq⟩ := mem_deleteDirOps srcF dstF _ hop
      exact absurd heq (by simp)
    · rw [renameState_none] at hop
      exact absurd hop (by simp)
    · obtain ⟨tr0, p0, _, _, heq⟩ := mem_deleteOps _ _ _ _ hop
      exact absurd heq (by simp)
    · obtain ⟨p0, _, heq⟩ := mem_createOps _ _ _ _ hop
      exact absurd heq (by simp)
    · obtain ⟨p0, ms0, md0, _, _, _, _, heq⟩ := mem_updateOps _ _ _ hop
      exact absurd heq (by simp)
    · obtain ⟨rel, _, _, heq⟩ := mem_createDirOps _ _ _ hop
      exact absurd heq (by simp)

/-- Source side of the threshold witness: a 10-byte and a 9-byte file, each
uniquely matching a destination-only file by signature. -/
def srcW8 : FileList where
  root := "s"
  relpath_to_stats := [("bn", ⟨10, 1⟩), ("sn", ⟨9, 2⟩)]
  real_names := [("bn", "bn"), ("sn", "sn")]
  empty_dirs := []

/-- Destination side of the threshold witness. -/
def dstW8 : FileList where
  root := "d"
  relpath_to_stats := [("bo", ⟨10, 1⟩), ("so", ⟨9, 2⟩)]
  real_names := [("bo", "bo"), ("so", "so")]
  empty_dirs := []

theorem claim_C8_witness :
    Op.rename (joinPath dstW8.root "bo") (joinPath dstW8.root "bn") 0
        ("R " ++ "bo" ++ " -> " ++ "bn") ∈
      operations srcW8 dstW8 (some "tr") (some 10) true (fun _ => []) ∧
    Op.delete (joinPath dstW8.root "so") (joinPath "tr" "so") (-((9 : Nat) : Int))
        ("- " ++ "so") ∈
      operations srcW8 dstW8 (some "tr") (some 10) true (fun _ => []) ∧
    Op.create (joinPath srcW8.root "sn") (joinPath dstW8.root "sn") ((9 : Nat) : Int)
        ("+ " ++ "sn") ∈
      operations srcW8 dstW8 (some "tr") (some 10) true (fun _ => []) := by
  have h := claim_C8_threshold_boundary srcW8 dstW8 (some "tr") true (fun _ => []) 10
    (by decide) (by decide)
  refine ⟨?_, ?_, ?_⟩
  · exact h.1 "bo" "bn" ⟨10, 1⟩ "bo" "bn" (by decide) (by decide) (by decide)
      (by decide) (by decide) (by decide) (by decide) (Or.inl rfl) (by decide) (by decide)
  · exact ((h.2.1 "so" "sn" ⟨9, 2⟩ "so" "sn" (by decide) (by decide) (by decide)
      (by decide) (by decide) (by decide) (by decide)).2.1 "tr" rfl)
  · exact ((h.2.1 "so" "sn" ⟨9, 2⟩ "so" "sn" (by decide) (by decide) (by decide)
      (by decide) (by decide) (by decide) (by decide)).2.2)

/-! ## Filter engine (`_Filter`)

`_Filter` compiles each glob pattern with
`glob.translate(pattern, recursive=True, include_hidden=not ignore_hidden)`
and evaluates a path with `re.Pattern.match` against the anchored regex.
`RItem` is the grammar of the regexes `glob.translate` produces for
`include_hidden=True` (the default) with separator `/`; `rmatch` is their
matching semantics. Bracket character classes are outside the modelled
fragment (none of the verified rule lists use them). -/

inductive RItem where
  | lit (c : Char)
  | anyChar
  | starSeg
  | sep
  | anySegs
  | anyLast
deriving DecidableEq, Repr

/-- Regex matching for the translated-glob grammar, structured by fuel so that
terms reduce; `mode = true` is the state inside the `.+/` of an `anySegs`
item (consume at least the characters up to and including a `/`). Each step
consumes fuel while shrinking `rs.length + cs.length`, so the initial fuel in
`rmatch` is never exhausted. -/
def rmatchF : Nat → Bool → List RItem → List Char → Bool
  | 0, _, _, _ => false
  | fuel+1, true, rs, cs =>
    match cs with
    | [] => false
    | d :: cs2 => (d = '/' && rmatchF fuel false rs cs2) || rmatchF fuel true rs cs2
  | fuel+1, false, rs, cs =>
    match rs, cs with
    | [], [] => true
    | [], _ :: _ => false
    | .lit _ :: _, [] => false
    | .lit c :: rs2, d :: cs2 => c = d && rmatchF fuel false rs2 cs2
    | .anyChar :: _, [] => false
    | .anyChar :: rs2, d :: cs2 => d ≠ '/' && rmatchF fuel false rs2 cs2
    | .sep :: _, [] => false
    | .sep :: rs2, d :: cs2 => d = '/' && rmatchF fuel false rs2 cs2
    | .starSeg :: rs2, cs =>
      rmatchF fuel false rs2 cs ||
        (match cs with
         | d :: cs2 => d ≠ '/' && rmatchF fuel false (RItem.starSeg :: rs2) cs2
         | [] => false)
    | .anyLast :: rs2, cs =>
      rmatchF fuel false rs2 cs ||
        (match cs with
         | _ :: cs2 => rmatchF fuel false (RItem.anyLast :: rs2) cs2
         | [] => false)
    | .anySegs :: rs2, cs =>
      rmatchF fuel false rs2 cs ||
        (match cs with
         | _ :: cs2 => rmatchF fuel true rs2 cs2
         | [] => false)

/-- `re.Pattern.match` of a translated glob against a whole relative path. -/
def rmatch (rs : List RItem) (cs : List Char) : Bool :=
  rmatchF (rs.length + cs.length + 1) false rs cs

/-- `re.split(sep, pat)` on the separator. -/
def splitSlash : List Char → List (List Char)
  | [] => [[]]
  | c :: cs =>
    let rest := splitSlash cs
    if c = '/' then [] :: rest
    else match rest with
      | r :: rs => (c :: r) :: rs
      | [] => [[c]]

/-- `fnmatch._translate` of one path segment: `*` becomes `[^/]*`, `?`
becomes `[^/]`, other characters are literals. -/
def translatePart (s : List Char) : List RItem :=
  s.map fun c =>
    if c = '*' then RItem.starSeg else if c = '?' then RItem.anyChar else RItem.lit c

/-- The per-segment loop of `glob.translate` (`recursive=True`,
`include_hidden=True`): a full `*` segment is `[^/]+` (with a trailing `/`
when not last), a full `**` segment is `(?:.+/)?` when not last (dropped when
followed by another `**`) and `.*` when last; other segments go through
`fnmatch._translate` with `/` separators in between. -/
def translateParts : List (List Char) → List RItem
  | [] => []
  | [part] =>
    if part = ['*'] then [RItem.anyChar, RItem.starSeg]
    else if part = ['*', '*'] then [RItem.anyLast]
    else translatePart part
  | part :: next :: rest =>
    (if part = ['*'] then [RItem.anyChar, RItem.starSeg, RItem.sep]
     else if part = ['*', '*'] then
       (if next = ['*', '*'] then [] else [RItem.anySegs])
     else translatePart part ++ [RItem.sep]) ++ translateParts (next :: rest)

/-- `glob.translate(pat, recursive=True, include_hidden=True)` with `/` as the
separator. -/
def translateGlob (pat : String) : List RItem := translateParts (splitSlash pat.data)

/-- Index of the last `/`, for `str.rfind`. -/
def lastSlashIdx : List Char → Option Nat
  | [] => none
  | c :: cs =>
    match lastSlashIdx cs with
    | some i => some (i + 1)
    | none => if c = '/' then some 0 else none

/-- `str.rstrip(sep)`. -/
def rstripSlash (l : List Char) : List Char := (l.reverse.dropWhile (· = '/')).reverse

/-- `os.path.dirname` (POSIX): everything up to the last `/`, with trailing
separators stripped unless the head is all separators. -/
def dirname (p : String) : String :=
  match lastSlashIdx p.data with
  | none => ""
  | some i =>
    let head := p.data.take (i + 1)
    if head.all (· = '/') then String.mk head
    else String.mk (rstripSlash head)

/-- `_Filter`: the ordered compiled rule list `patterns`. -/
structure Filter where
  patterns : List (Bool × List RItem)
deriving Repr

/-- Quote stripping in `_Filter.__init__` (`pattern[1:-1]`). -/
def stripQuotes (p : String) : String :=
  match p.data with
  | c :: _ => if c = '\'' ∨ c = '"' then String.mk ((p.data.drop 1).dropLast) else p
  | [] => p

/-- Leading `./` stripping in `_Filter.__init__`. -/
def stripDotSlash (p : String) : String :=
  match p.data with
  | '.' :: '/' :: rest => String.mk rest
  | _ => p

/-- The `while True` loop of `_Filter.__init__` that registers directory-only
include rules for every ancestor directory of an include pattern. The loop
either stops at an empty or already-seen ancestor or strictly shortens the
pattern, so the fuel passed by `compilePattern` is never exhausted. -/
def implicitDirs (act : Bool) : Nat → String →
    List (Bool × List RItem) × List String → List (Bool × List RItem) × List String
  | 0, _, st => st
  | fuel+1, pattern, st =>
    let pattern := dirname pattern
    if pattern = "" then st
    else if pattern ∈ st.2 then st
    else implicitDirs act fuel pattern
      (st.1 ++ [(act, translateGlob (pattern ++ "/"))], st.2 ++ [pattern])

/-- Processing of one pattern in `_Filter.__init__`: strip quotes and a
leading `./`, skip empty patterns, append the compiled pattern, and for
include patterns synthesize the ancestor directory rules. (The `..` and
absolute-path rejections raise before any state change and are outside the
model, which only receives valid patterns.) -/
def compilePattern (act : Bool) (st : List (Bool × List RItem) × List String)
    (pattern : String) : List (Bool × List RItem) × List String :=
  let pattern := stripDotSlash (stripQuotes pattern)
  if pattern = "" then st
  else
    let st1 := (st.1 ++ [(act, translateGlob pattern)], st.2)
    if act then implicitDirs act (pattern.length + 2) pattern st1 else st1

/-- `_Filter.__init__` over the parsed `(+|-) patterns...` groups of a filter
string: an exclude group clears the implicit-directory set, then every pattern
in the group is compiled in order. -/
def mkFilter (groups : List (Bool × List String)) : Filter :=
  ⟨(groups.foldl (fun st grp =>
      let st := if grp.1 then st else (st.1, ([] : List String))
      grp.2.foldl (fun st p => compilePattern grp.1 st p) st)
    ([], [])).1⟩

/-- `_Filter.filter`: first matching rule decides; otherwise the default. -/
def Filter.filter (f : Filter) (relpath : String) (dflt : Bool) : Bool :=
  match f.patterns.find? (fun ar => rmatch ar.2 relpath.data) with
  | some ar => ar.1
  | none => dflt

/-- C4 (amended): filter evaluation is first-match-wins over the ordered rule
list, with the caller's default (exclude) when no rule matches. For the
compiled rule list `- a/b/ + a/`: the directory query `a/b/` is excluded by
the first rule (so the scanner prunes the subtree and `a/b/c.txt` is never
reached; the file path `a/b/c.txt` itself also matches no rule and is
excluded by default), the directory query `a/` is included — but the file
path `a/d.txt` is also excluded, because `+ a/` is a directory-only rule that
matches no file path and no other rule matches it. -/
theorem claim_C4_first_match_wins :
    (∀ (l1 l2 : List (Bool × List RItem)) (a : Bool) (pat : List RItem)
        (relpath : String) (dflt : Bool),
        (∀ ar ∈ l1, rmatch ar.2 relpath.data = false) →
        rmatch pat relpath.data = true →
        Filter.filter ⟨l1 ++ (a, pat) :: l2⟩ relpath dflt = a) ∧
    (∀ (ps : List (Bool × List RItem)) (relpath : String) (dflt : Bool),
        (∀ ar ∈ ps, rmatch ar.2 relpath.data = false) →
        Filter.filter ⟨ps⟩ relpath dflt = dflt) ∧
    ((mkFilter [(false, ["a/b/"]), (true, ["a/"])]).filter "a/b/c.txt" false = false ∧
     (mkFilter [(false, ["a/b/"]), (true, ["a/"])]).filter "a/b/" false = false ∧
     (mkFilter [(false, ["a/b/"]), (true, ["a/"])]).filter "a/" false = true ∧
     (mkFilter [(false, ["a/b/"]), (true, ["a/"])]).filter "a/d.txt" false = false) := by
  refine ⟨?_, ?_, by decide, by decide, by decide, by decide⟩
  · intro l1 l2 a pat relpath dflt h1 h2
    unfold Filter.filter
    induction l1 with
    | nil =>
      rw [List.nil_append, List.find?_cons_of_pos _ (by simpa using h2)]
    | cons hd l1 ih =>
      rw [List.cons_append, List.find?_cons_of_neg]
      · exact ih fun ar har => h1 ar (List.mem_cons_of_mem _ har)
      · simp [h1 hd (List.mem_cons_self _ _)]
  · intro ps relpath dflt h
    unfold Filter.filter
    rw [List.find?_eq_none.mpr fun ar har => by simp [h ar har]]

/-- C4 (counterexample): under the compiled rule list `- a/b/ + a/` the file
path `a/d.txt` is excluded, not included as the claim states: the include
rule `a/` is directory-only (its regex matches only the exact string `a/`),
so no rule matches `a/d.txt` and the default (exclude) applies. -/
theorem claim_C4_counterexample_dir_only_include :
    (mkFilter [(false, ["a/b/"]), (true, ["a/"])]).filter "a/d.txt" false = false := by
  decide

theorem claim_C4_witness :
    Filter.filter ⟨[(false, translateGlob "x"), (true, translateGlob "a/*")]⟩
        "a/b" true = true ∧
    Filter.filter ⟨[(false, translateGlob "x"), (true, translateGlob "a/*")]⟩
        "c" false = false :=
  ⟨(claim_C4_first_match_wins.1 [(false, translateGlob "x")] [] true
      (translateGlob "a/*") "a/b" true (by decide) (by decide)),
   (claim_C4_first_match_wins.2.1 [(false, translateGlob "x"), (true, translateGlob "a/*")]
      "c" false (by decide))⟩

/-! ## Copy primitive (`_copy`)

`_copy` is modelled as a state machine over the observable facts it consults
(`CopyFS`) and an environment fixing the outcome of each OS primitive it
invokes (`CopyEnv`). `shutil.copy2` opens the destination and copies in
chunks, so a failure partway leaves the partial temporary file on disk
(`Copy2Res.failTmpLeft`) while a failure to open creates nothing
(`Copy2Res.failNoTmp`). `Path.replace` is a single atomic rename; the
temporary-file `unlink` in the cleanup handler is assumed to succeed. `sync`
calls `_copy` with the default `exist_ok=True`, which is the path modelled
here. -/

/-- Facts about the filesystem consulted by `_copy`. -/
structure CopyFS where
  dstExists : Bool
  dstIsFile : Bool
  sameFile : Bool
  dstReadOnly : Bool
deriving DecidableEq, Repr

/-- Outcome of the `shutil.copy2` call. -/
inductive Copy2Res where
  | ok
  | failTmpLeft
  | failNoTmp
deriving DecidableEq, Repr, Fintype

/-- Outcome of a `Path.replace` call. -/
inductive ReplaceRes where
  | ok
  | permError
  | osError
deriving DecidableEq, Repr, Fintype

/-- Outcomes of the OS primitives `_copy` invokes, in program order. -/
structure CopyEnv where
  mkdirOk : Bool
  copy2 : Copy2Res
  replace1 : ReplaceRes
  statOk : Bool
  chmodWriteOk : Bool
  replace2 : ReplaceRes
  chmodReadOk : Bool
deriving DecidableEq, Repr

/-- How a `_copy` call ends. -/
inductive CopyResult where
  | ok
  | fileExistsError
  | oserror
deriving DecidableEq, Repr

/-- The post-state of a `_copy` call: how it ended, whether the `.tempcopy`
file remains on disk, whether the visible destination was atomically updated,
and whether the read-only attribute was cleared and restored. -/
structure CopyOutcome where
  result : CopyResult
  tmpExists : Bool
  dstUpdated : Bool
  roCleared : Bool
  roRestored : Bool
deriving DecidableEq, Repr

/-- `_copy` (psync.py): copy into a sibling `.tempcopy` file, rename it onto
the destination, retry the rename once after clearing a read-only attribute
(restoring it in a `finally`), and unlink the temporary in the outer
`finally` when the `delete_tmp` flag is set. The flag is set only after
`shutil.copy2` returns and cleared when a rename succeeds. -/
def copyRun (fs : CopyFS) (env : CopyEnv) : CopyOutcome :=
  if fs.dstExists ∧ ¬ fs.dstIsFile then
    { result := .fileExistsError, tmpExists := false, dstUpdated := false,
      roCleared := false, roRestored := false }
  else if fs.dstExists ∧ fs.sameFile then
    { result := .fileExistsError, tmpExists := false, dstUpdated := false,
      roCleared := false, roRestored := false }
  else if ¬ env.mkdirOk then
    { result := .oserror, tmpExists := false, dstUpdated := false,
      roCleared := false, roRestored := false }
  else
    match env.copy2 with
    | .failNoTmp =>
      { result := .oserror, tmpExists := false, dstUpdated := false,
        roCleared := false, roRestored := false }
    | .failTmpLeft =>
      { result := .oserror, tmpExists := true, dstUpdated := false,
        roCleared := false, roRestored := false }
    | .ok =>
      match env.replace1 with
      | .ok =>
        { result := .ok, tmpExists := false, dstUpdated := true,
          roCleared := false, roRestored := false }
      | .osError =>
        { result := .oserror, tmpExists := false, dstUpdated := false,
          roCleared := false, roRestored := false }
      | .permError =>
        if ¬ env.statOk then
          { result := .oserror, tmpExists := false, dstUpdated := false,
            roCleared := false, roRestored := false }
        else if ¬ fs.dstReadOnly then
          { result := .oserror, tmpExists := false, dstUpdated := false,
            roCleared := false, roRestored := false }
        else if ¬ env.chmodWriteOk then
          { result := .oserror, tmpExists := false, dstUpdated := false,
            roCleared := false, roRestored := false }
        else
          match env.replace2 with
          | .ok =>
            if env.chmodReadOk then
              { result := .ok, tmpExists := false, dstUpdated := true,
                roCleared := true, roRestored := true }
            else
              { result := .oserror, tmpExists := false, dstUpdated := true,
                roCleared := true, roRestored := false }
          | _ =>
            if env.chmodReadOk then
              { result := .oserror, tmpExists := false, dstUpdated := false,
                roCleared := true, roRestored := true }
            else
              { result := .oserror, tmpExists := false, dstUpdated := false,
                roCleared := true, roRestored := false }

/-- C5 (amended): the copy primitive copies into a sibling temporary and makes
the update visible only through an atomic rename; on every failure path other
than a failure inside the initial copy itself, the temporary file is removed;
the read-only attribute, once cleared, is restored even if the retried rename
fails. (A failure while writing the temporary leaves the partial temporary
behind, since the cleanup flag is set only after `shutil.copy2` returns.) -/
theorem claim_C5_amended_cleanup (de di sf ro mk st cw cr : Bool)
    (c2 : Copy2Res) (r1 r2 : ReplaceRes) :
    (c2 ≠ Copy2Res.failTmpLeft →
      (copyRun (CopyFS.mk de di sf ro) (CopyEnv.mk mk c2 r1 st cw r2 cr)).tmpExists
        = false) ∧
    ((copyRun (CopyFS.mk de di sf ro) (CopyEnv.mk mk c2 r1 st cw r2 cr)).result
        = CopyResult.ok →
      (copyRun (CopyFS.mk de di sf ro) (CopyEnv.mk mk c2 r1 st cw r2 cr)).tmpExists
          = false ∧
      (copyRun (CopyFS.mk de di sf ro) (CopyEnv.mk mk c2 r1 st cw r2 cr)).dstUpdated
          = true) ∧
    ((copyRun (CopyFS.mk de di sf ro) (CopyEnv.mk mk c2 r1 st cw r2 cr)).roCleared
        = true → cr = true →
      (copyRun (CopyFS.mk de di sf ro) (CopyEnv.mk mk c2 r1 st cw r2 cr)).roRestored
        = true) := by
  revert de di sf ro mk st cw cr r1 r2
  cases c2 <;> decide

/-- C5 (counterexample): when `shutil.copy2` itself fails after creating the
temporary (for example, the disk fills up partway through the write), `_copy`
fails and the partial `.tempcopy` file remains on disk: the `delete_tmp` flag
is still `False` at that point, so the cleanup `finally` does not remove it —
contradicting the claim that after any failed copy no temporary artifact
remains. -/
theorem claim_C5_counterexample_partial_copy_artifact :
    (copyRun (CopyFS.mk false false false false)
        (CopyEnv.mk true Copy2Res.failTmpLeft ReplaceRes.ok true true ReplaceRes.ok true)).result
      = CopyResult.oserror ∧
    (copyRun (CopyFS.mk false false false false)
        (CopyEnv.mk true Copy2Res.failTmpLeft ReplaceRes.ok true true ReplaceRes.ok true)).tmpExists
      = true := by
  decide

theorem claim_C5_witness :
    (copyRun (CopyFS.mk false false false true)
        (CopyEnv.mk true Copy2Res.ok ReplaceRes.permError true true ReplaceRes.osError true)).tmpExists
      = false ∧
    (copyRun (CopyFS.mk false false false true)
        (CopyEnv.mk true Copy2Res.ok ReplaceRes.permError true true ReplaceRes.osError true)).roRestored
      = true :=
  ⟨(claim_C5_amended_cleanup false false false true true true true true
      Copy2Res.ok ReplaceRes.permError ReplaceRes.osError).1 (by decide),
   (claim_C5_amended_cleanup false false false true true true true true
      Copy2Res.ok ReplaceRes.permError ReplaceRes.osError).2.2 (by decide) rfl⟩

/-! ## Move primitive (`_move` / `_delete_empty_dirs`)

The filesystem is modelled as lists of file and directory paths (segment
lists) with a case-insensitivity flag: `Path.exists`, `Path` equality and
`Path.is_relative_to` compare case-folded paths when the filesystem (Windows
path flavour) is case-insensitive, literal paths otherwise. `sync` calls
`_move` with the default `exist_ok=False`, the path modelled here; the source
path always exists when the planner emits the move, and `os.rename` and
`Path.rmdir` on an existing empty directory are assumed to succeed. -/

/-- A filesystem path as its list of components. -/
abbrev MPath := List String

/-- ASCII lower-casing of one character. -/
def lowerChar (c : Char) : Char :=
  if 'A' ≤ c ∧ c ≤ 'Z' then Char.ofNat (c.toNat + 32) else c

/-- ASCII lower-casing of one path component. -/
def lowerStr (s : String) : String := String.mk (s.data.map lowerChar)

/-- Case normalization of one component under the filesystem convention. -/
def normSeg (ci : Bool) (s : String) : String := if ci then lowerStr s else s

/-- Case normalization of a path. -/
def normPath (ci : Bool) (p : MPath) : MPath := p.map (normSeg ci)

/-- Path equality under the filesystem convention. -/
def pathEq (ci : Bool) (p q : MPath) : Bool := normPath ci p = normPath ci q

/-- The filesystem state the move primitive manipulates. -/
structure MoveFS where
  ci : Bool
  files : List MPath
  dirs : List MPath
deriving DecidableEq, Repr

/-- `Path.exists`. -/
def pathExists (fs : MoveFS) (p : MPath) : Bool :=
  (fs.files ++ fs.dirs).any fun q => pathEq fs.ci q p

/-- `Path.is_dir`. -/
def isDirIn (fs : MoveFS) (d : MPath) : Bool :=
  fs.dirs.any fun q => pathEq fs.ci q d

/-- `not any(dir.iterdir())`: the directory has no entry strictly below it. -/
def dirEmpty (fs : MoveFS) (d : MPath) : Bool :=
  ! (fs.files ++ fs.dirs).any fun q =>
      (normPath fs.ci d).isPrefixOf (normPath fs.ci q) && d.length < q.length

/-- `Path.rmdir`. -/
def rmdir (fs : MoveFS) (d : MPath) : MoveFS :=
  { fs with dirs := fs.dirs.filter fun q => ! pathEq fs.ci q d }

def addDirIfMissing (ci : Bool) (dirs : List MPath) (d : MPath) : List MPath :=
  if dirs.any fun q => pathEq ci q d then dirs else dirs ++ [d]

/-- `dir.mkdir(exist_ok=True, parents=True)` on the destination's parent. -/
def ancestorsOf (d : MPath) : List MPath :=
  (List.range d.length).map (fun i => d.take (i + 1))

def mkdirParents (fs : MoveFS) (d : MPath) : MoveFS :=
  { fs with dirs := (ancestorsOf d).foldl (addDirIfMissing fs.ci) fs.dirs }


/-- `src.replace(dst)`: the source entry disappears, the destination appears. -/
def replacePath (fs : MoveFS) (src dst : MPath) : MoveFS :=
  { fs with files := (fs.files.filter fun q => ! pathEq fs.ci q src) ++ [dst] }
theorem replacePath_dirs (fs : MoveFS) (src dst : MPath) :
    (replacePath fs src dst).dirs = fs.dirs := rfl

theorem mkdirParents_dirs (fs : MoveFS) (d : MPath) :
    (mkdirParents fs d).dirs = (ancestorsOf d).foldl (addDirIfMissing fs.ci) fs.dirs :=
  rfl


/-- The exceptions `_move` and `_delete_empty_dirs` raise. -/
inductive MoveErr where
  | fileExists
  | valueError
deriving DecidableEq, Repr

instance {ε α : Type} [DecidableEq ε] [DecidableEq α] : DecidableEq (Except ε α) :=
  fun a b =>
    match a, b with
    | .ok x, .ok y =>
      if h : x = y then isTrue (by rw [h]) else
        isFalse (by intro hh; injection hh; contradiction)
    | .error x, .error y =>
      if h : x = y then isTrue (by rw [h]) else
        isFalse (by intro hh; injection hh; contradiction)
    | .ok _, .error _ => isFalse (by intro hh; injection hh)
    | .error _, .ok _ => isFalse (by intro hh; injection hh)

/-- The `while dir != root and not any(dir.iterdir())` loop of
`_delete_empty_dirs`: remove the directory and move to its parent. The fuel is
one more than the starting depth, which the loop can never exceed. -/
def deleteEmptyDirsLoop : Nat → MoveFS → MPath → MPath → MoveFS
  | 0, fs, _, _ => fs
  | fuel+1, fs, dir, root =>
    if ¬ pathEq fs.ci dir root ∧ dirEmpty fs dir then
      deleteEmptyDirsLoop fuel (rmdir fs dir) dir.dropLast root
    else fs

/-- `_delete_empty_dirs(dir, root=root)`: raise `ValueError` unless `dir` is a
directory with `root` as an ancestor, then delete upward while empty, stopping
at `root`. -/
def deleteEmptyDirs (fs : MoveFS) (dir root : MPath) : Except MoveErr MoveFS :=
  if ¬ isDirIn fs dir then .error .valueError
  else if ¬ (normPath fs.ci root).isPrefixOf (normPath fs.ci dir) then .error .valueError
  else .ok (deleteEmptyDirsLoop (dir.length + 1) fs dir root)

/-- `_move(src, dst, delete_empty_dirs_under=root)` (psync.py, default
`exist_ok=False`): raise `FileExistsError` whenever the destination exists,
else create the destination's parents, rename, and delete now-empty ancestors
of the source's original parent. -/
def psyncMove (fs : MoveFS) (src dst root : MPath) : Except MoveErr MoveFS :=
  if pathExists fs dst then .error .fileExists
  else deleteEmptyDirs (replacePath (mkdirParents fs dst.dropLast) src dst)
    src.dropLast root

theorem deleteEmptyDirsLoop_ci (fuel : Nat) (fs : MoveFS) (dir root : MPath) :
    (deleteEmptyDirsLoop fuel fs dir root).ci = fs.ci := by
  induction fuel generalizing fs dir with
  | zero => rfl
  | succ fuel ih =>
    unfold deleteEmptyDirsLoop
    split
    · rw [ih]; rfl
    · rfl

theorem deleteEmptyDirsLoop_files (fuel : Nat) (fs : MoveFS) (dir root : MPath) :
    (deleteEmptyDirsLoop fuel fs dir root).files = fs.files := by
  induction fuel generalizing fs dir with
  | zero => rfl
  | succ fuel ih =>
    unfold deleteEmptyDirsLoop
    split
    · rw [ih]; rfl
    · rfl

/-- Any directory the loop removes is not (an alias of) the root, and is an
alias of an ancestor prefix of the starting directory. -/
theorem deleteEmptyDirsLoop_removed (fuel : Nat) (fs : MoveFS) (dir root d : MPath)
    (hd : d ∈ fs.dirs)
    (hout : ¬ d ∈ (deleteEmptyDirsLoop fuel fs dir root).dirs) :
    pathEq fs.ci d root = false ∧
      ∃ k, normPath fs.ci d = normPath fs.ci (dir.take k) := by
  induction fuel generalizing fs dir with
  | zero => exact absurd hd hout
  | succ fuel ih =>
    rw [deleteEmptyDirsLoop] at hout
    by_cases hguard : ¬ pathEq fs.ci dir root ∧ dirEmpty fs dir
    · rw [if_pos hguard] at hout
      by_cases hd2 : d ∈ (rmdir fs dir).dirs
      · obtain ⟨h1, k, hk⟩ := ih (rmdir fs dir) dir.dropLast hd2 hout
        rw [show (rmdir fs dir).ci = fs.ci from rfl] at h1 hk
        refine ⟨h1, min k (dir.length - 1), ?_⟩
        rw [hk, List.dropLast_eq_take, List.take_take]
      · have hpe : pathEq fs.ci d dir = true := by
          unfold rmdir at hd2
          simp only [List.mem_filter] at hd2
          by_contra hne
          exact hd2 ⟨hd, by simp [Bool.eq_false_iff.mpr hne]⟩
        have hdd : normPath fs.ci d = normPath fs.ci dir := by
          simpa [pathEq] using hpe
        have hroot : pathEq fs.ci d root = false := by
          by_contra hr
          rw [Bool.not_eq_false] at hr
          have hdr : normPath fs.ci d = normPath fs.ci root := by
            simpa [pathEq] using hr
          refine hguard.1 ?_
          simp only [pathEq, decide_eq_true_eq]
          rw [← hdd]
          exact hdr
        refine ⟨hroot, dir.length, ?_⟩
        rw [List.take_length]
        exact hdd
    · rw [if_neg hguard] at hout
      exact absurd hd hout

/-- The loop never deletes the root. -/
theorem deleteEmptyDirsLoop_root_kept (fuel : Nat) (fs : MoveFS) (dir root : MPath)
    (h : root ∈ fs.dirs) :
    root ∈ (deleteEmptyDirsLoop fuel fs dir root).dirs := by
  by_contra h2
  obtain ⟨h1, _⟩ := deleteEmptyDirsLoop_removed fuel fs dir root root h h2
  simp [pathEq] at h1

theorem mem_foldl_addDir (ci : Bool) (l : List MPath) (dirs : List MPath) (d : MPath)
    (h : d ∈ dirs) : d ∈ l.foldl (addDirIfMissing ci) dirs := by
  induction l generalizing dirs with
  | nil => exact h
  | cons x l ih =>
    rw [List.foldl_cons]
    refine ih _ ?_
    unfold addDirIfMissing
    split
    · exact h
    · exact List.mem_append_left _ h

/-- C6 (amended): the move primitive raises the already-exists failure exactly
when the destination path exists — including when it is merely a
case-different alias of the source on a case-insensitive filesystem (psync's
`_move` has no alias exemption; only the legacy `backup.py` variant does).
When it does not fail, it renames the entry in place, deletes only aliases of
ancestor prefixes of the source's original parent, and never deletes the
configured root. -/
theorem claim_C6_amended_move (fs : MoveFS) (src dst root : MPath) :
    (pathExists fs dst = true →
      psyncMove fs src dst root = Except.error MoveErr.fileExists) ∧
    (psyncMove fs src dst root = Except.error MoveErr.fileExists →
      pathExists fs dst = true) ∧
    (∀ fs', psyncMove fs src dst root = Except.ok fs' →
      fs'.files = (fs.files.filter fun q => ! pathEq fs.ci q src) ++ [dst] ∧
      (root ∈ fs.dirs → root ∈ fs'.dirs) ∧
      (∀ d ∈ fs.dirs, ¬ d ∈ fs'.dirs →
        pathEq fs.ci d root = false ∧
        ∃ k, normPath fs.ci d = normPath fs.ci (src.dropLast.take k))) := by
  refine ⟨?_, ?_, ?_⟩
  · intro h
    unfold psyncMove
    rw [if_pos h]
  · intro h
    by_contra hne
    rw [Bool.not_eq_true] at hne
    unfold psyncMove at h
    rw [if_neg (by simp [hne])] at h
    unfold deleteEmptyDirs at h
    split at h
    · exact absurd (Except.error.inj h) (by simp)
    · split at h
      · exact absurd (Except.error.inj h) (by simp)
      · exact absurd h (by simp)
  · intro fs' h
    unfold psyncMove at h
    split at h
    · exact absurd h (by simp)
    · unfold deleteEmptyDirs at h
      split at h
      · exact absurd h (by simp)
      · split at h
        · exact absurd h (by simp)
        · have hfs' : fs' = deleteEmptyDirsLoop (src.dropLast.length + 1)
              (replacePath (mkdirParents fs dst.dropLast) src dst)
              src.dropLast root := (Except.ok.inj h).symm
          have hci : (replacePath (mkdirParents fs dst.dropLast) src dst).ci = fs.ci := rfl
          refine ⟨?_, ?_, ?_⟩
          · rw [hfs', deleteEmptyDirsLoop_files]
            rfl
          · intro hroot
            rw [hfs']
            apply deleteEmptyDirsLoop_root_kept
            rw [replacePath_dirs, mkdirParents_dirs]
            exact mem_foldl_addDir fs.ci _ fs.dirs root hroot
          · intro d hd hout
            rw [hfs'] at hout
            have hd2 : d ∈ (replacePath (mkdirParents fs dst.dropLast) src dst).dirs := by
              rw [replacePath_dirs, mkdirParents_dirs]
              exact mem_foldl_addDir fs.ci _ fs.dirs d hd
            obtain ⟨h1, k, hk⟩ := deleteEmptyDirsLoop_removed _ _ _ _ d hd2 hout
            exact ⟨h1, k, hk⟩

/-- Destination filesystem of the move witness. -/
def fsW6 : MoveFS := MoveFS.mk false [["r", "x"], ["r", "s", "f"]] [["r"], ["r", "s"]]

/-- State after moving `r/s/f` to `r/x2`: the source directory `r/s`, now
empty, is deleted, the root `r` survives. -/
def fsW6a : MoveFS := MoveFS.mk false [["r", "x"], ["r", "x2"]] [["r"]]

theorem claim_C6_witness :
    psyncMove fsW6 ["r", "s", "f"] ["r", "x"] ["r"] =
      Except.error MoveErr.fileExists ∧
    fsW6a.files = (fsW6.files.filter fun q => ! pathEq fsW6.ci q ["r", "s", "f"]) ++
      [["r", "x2"]] ∧
    ["r"] ∈ fsW6a.dirs :=
  ⟨(claim_C6_amended_move fsW6 ["r", "s", "f"] ["r", "x"] ["r"]).1 (by decide),
   ((claim_C6_amended_move fsW6 ["r", "s", "f"] ["r", "x2"] ["r"]).2.2 fsW6a
      (by decide)).1,
   (((claim_C6_amended_move fsW6 ["r", "s", "f"] ["r", "x2"] ["r"]).2.2 fsW6a
      (by decide)).2.1 (by decide))⟩

/-- Case-insensitive filesystem for the move counterexample. -/
def fsCI6 : MoveFS := MoveFS.mk true [["d", "a.txt"]] [["d"]]

/-- C6 (counterexample): on a case-insensitive filesystem, renaming
`d/a.txt` to its case-different alias `d/A.txt` fails with the already-exists
error, although the claim states the primitive must not fail when the
destination exists merely as a case-different alias of the source: psync's
`_move` checks `dst.exists()` with no alias exemption. -/
theorem claim_C6_counterexample_case_alias :
    pathEq true ["d", "a.txt"] ["d", "A.txt"] = true ∧
    (["d", "a.txt"] : MPath) ≠ ["d", "A.txt"] ∧
    pathExists fsCI6 ["d", "A.txt"] = true ∧
    psyncMove fsCI6 ["d", "a.txt"] ["d", "A.txt"] ["d"] =
      Except.error MoveErr.fileExists := by
  decide

/-! ## `sync` entry point

`sync` is modelled down to its observable outcome: the argument type checks
and path validations in source order, the installation of the temporary log
file and its handler when a log was requested, the scans, the operation loop
with its per-operation `try/except OSError`, the outer handlers that catch
`KeyboardInterrupt`, `TypeError`/`ValueError` and any other exception, and
the `finally` block, whose log finalization `tmp_log_file.replace(log_file)`
runs after all the handlers with nothing catching it: a failure there
propagates out of `sync`, so the model returns an `Option Results`, `none`
standing for an exception escaping the entry point. Filesystem facts
consulted during validation, the two snapshots the scans produce, each
operation's execution outcome, and the fates of the temporary-log creation
and of the final log rename are supplied by an environment. -/

/-- A Python argument value as far as `sync`'s `isinstance` checks see it. -/
inductive PyVal where
  | str (s : String)
  | pathLike (s : String)
  | int (n : Int)
  | bool (b : Bool)
  | pynone
  | other
deriving DecidableEq, Repr

/-- The keyword arguments of `sync` that are type-checked. -/
structure SyncArgs where
  src : PyVal
  dst : PyVal
  trash : PyVal
  filterArg : PyVal
  ignore_hidden : PyVal
  rename_threshold : PyVal
  metadata_only : PyVal
  dry_run : PyVal
  log : PyVal
  quiet : PyVal
  veryquiet : PyVal
deriving DecidableEq, Repr

/-- How executing one operation in the loop ends: success, an `OSError`
caught by the per-operation handler, or a `KeyboardInterrupt` delivered
before the operation completes. -/
inductive OpOutcome where
  | ok
  | osErr
  | interrupt
deriving DecidableEq, Repr

/-- The environment `sync` runs against. `tmpLogOk` is whether creating the
temporary log file and its `FileHandler` succeeds (a failure there is an
exception inside the `try`, caught by the generic handler, and leaves
`handler_file` unset); `logReplaceOk` is whether the final
`tmp_log_file.replace(log_file)` in the `finally` block succeeds. -/
structure SyncEnv where
  srcExists : Bool
  srcIsDir : Bool
  dstExists : Bool
  dstIsDir : Bool
  sameResolved : Bool
  trashExists : Bool
  trashIsDir : Bool
  logExists : Bool
  mkdirsOk : Bool
  trashExistsAfter : Bool
  sameDev : Bool
  scanOk : Bool
  srcSnapshot : FileList
  dstSnapshot : FileList
  lastBytes : String → List Nat
  opOutcome : Nat → OpOutcome
  errMsg : Nat → String
  tmpLogOk : Bool
  logReplaceOk : Bool

/-- `Results`, with the fields `sync` mutates. -/
structure Results where
  trash_root : Option String
  log_file : Option String
  success : Bool
  errors : List String
  create_success : Nat
  rename_success : Nat
  update_success : Nat
  delete_success : Nat
  create_error : Nat
  rename_error : Nat
  update_error : Nat
  delete_error : Nat
  byte_diff : Int
  dir_create_success : Nat
  dir_create_error : Nat
  dir_delete_success : Nat
  dir_delete_error : Nat
deriving DecidableEq, Repr

/-- `Results.__init__`. -/
def Results.init : Results :=
  ⟨none, none, false, [], 0, 0, 0, 0, 0, 0, 0, 0, 0, 0, 0, 0, 0⟩

def isStrOrPath : PyVal → Bool
  | .str _ => true
  | .pathLike _ => true
  | _ => false

def isNoneOrStrPath : PyVal → Bool
  | .pynone => true
  | v => isStrOrPath v

def isStr : PyVal → Bool
  | .str _ => true
  | _ => false

def isBool : PyVal → Bool
  | .bool _ => true
  | _ => false

def isNoneOrInt : PyVal → Bool
  | .pynone => true
  | .int _ => true
  | _ => false

/-- The eleven `isinstance` checks of `sync`, in source order; any failure
raises `TypeError`, which the outer handler catches. -/
def typeChecksPass (a : SyncArgs) : Bool :=
  isStrOrPath a.src && isStrOrPath a.dst && isNoneOrStrPath a.trash &&
  isStr a.filterArg && isBool a.ignore_hidden && isNoneOrInt a.rename_threshold &&
  isBool a.metadata_only && isBool a.dry_run && isNoneOrStrPath a.log &&
  isBool a.quiet && isBool a.veryquiet

/-- `trash_root`: `None`, an automatic sibling directory for `"auto"`, or a
timestamped subdirectory of the given path. -/
def trashRootOf (a : SyncArgs) : Option String :=
  match a.trash with
  | .str s => some (if s = "auto" then "Trash.ts" else joinPath s "ts")
  | .pathLike s => some (if s = "auto" then "Trash.ts" else joinPath s "ts")
  | _ => none

/-- `log_file`: `None`, a home-directory log for `"auto"`, or the given path. -/
def logFileOf (a : SyncArgs) : Option String :=
  match a.log with
  | .str s => some s
  | .pathLike s => some s
  | _ => none

def thresholdOf (a : SyncArgs) : Option Int :=
  match a.rename_threshold with
  | .int n => some n
  | _ => none

def metadataOnlyOf (a : SyncArgs) : Bool :=
  match a.metadata_only with
  | .bool b => b
  | _ => false

def dryRunOf (a : SyncArgs) : Bool :=
  match a.dry_run with
  | .bool b => b
  | _ => false

def thresholdNegative (a : SyncArgs) : Bool :=
  match a.rename_threshold with
  | .int n => n < 0
  | _ => false

/-- The pre-scan validations and preparations of `sync` after the type
checks, in source order: directory checks on the roots, the same-directory
check, the trash and log collision checks (each raising `ValueError`), the
`os.makedirs` calls when not a dry run (an `OSError` there is caught by the
generic handler), the same-filesystem check for the trash, and the
non-negative threshold check. -/
def pathChecksPass (a : SyncArgs) (env : SyncEnv) : Bool :=
  (!(env.srcExists && !env.srcIsDir)) &&
  (!(env.dstExists && !env.dstIsDir)) &&
  (!env.sameResolved) &&
  (!((trashRootOf a).isSome && env.trashExists && !env.trashIsDir)) &&
  (!((logFileOf a).isSome && env.logExists)) &&
  (dryRunOf a || env.mkdirsOk) &&
  (!((trashRootOf a).isSome && env.trashExistsAfter && !env.sameDev)) &&
  (!thresholdNegative a)

/-- Counter and byte-delta updates for one successfully executed operation
(renames and directory operations do not touch `byte_diff`). -/
def bumpSuccess (op : Op) (r : Results) : Results :=
  match op with
  | .delete _ _ δ _ =>
    { r with delete_success := r.delete_success + 1, byte_diff := r.byte_diff + δ }
  | .create _ _ δ _ =>
    { r with create_success := r.create_success + 1, byte_diff := r.byte_diff + δ }
  | .update _ _ δ _ =>
    { r with update_success := r.update_success + 1, byte_diff := r.byte_diff + δ }
  | .rename _ _ _ _ => { r with rename_success := r.rename_success + 1 }
  | .createDir _ _ _ => { r with dir_create_success := r.dir_create_success + 1 }
  | .deleteDir _ _ _ => { r with dir_delete_success := r.dir_delete_success + 1 }

/-- Counter and error-list updates for one failed operation. -/
def bumpError (op : Op) (msg : String) (r : Results) : Results :=
  match op with
  | .delete _ _ _ _ =>
    { r with delete_error := r.delete_error + 1, errors := r.errors ++ [msg] }
  | .create _ _ _ _ =>
    { r with create_error := r.create_error + 1, errors := r.errors ++ [msg] }
  | .update _ _ _ _ =>
    { r with update_error := r.update_error + 1, errors := r.errors ++ [msg] }
  | .rename _ _ _ _ =>
    { r with rename_error := r.rename_error + 1, errors := r.errors ++ [msg] }
  | .createDir _ _ _ =>
    { r with dir_create_error := r.dir_create_error + 1, errors := r.errors ++ [msg] }
  | .deleteDir _ _ _ =>
    { r with dir_delete_error := r.dir_delete_error + 1, errors := r.errors ++ [msg] }

/-- The `for op ... in _operations(...)` loop: log the summary, and unless it
is a dry run execute the operation under a per-operation `except OSError`;
a `KeyboardInterrupt` aborts the loop with the counters collected so far. -/
def runOps (env : SyncEnv) (dry_run : Bool) :
    List (Nat × Op) → Results → Results × Bool
  | [], r => (r, false)
  | (i, op) :: rest, r =>
    if dry_run then runOps env dry_run rest r
    else match env.opOutcome i with
    | .interrupt => (r, true)
    | .ok => runOps env dry_run rest (bumpSuccess op r)
    | .osErr => runOps env dry_run rest (bumpError op (env.errMsg i) r)

/-- The `Results` object as it stands after the argument type checks: the
`trash_root` and `log_file` fields are recorded before any path validation. -/
def syncInitResults (a : SyncArgs) : Results :=
  { Results.init with trash_root := trashRootOf a, log_file := logFileOf a }

/-- Scanning both roots and streaming the plan through the executor loop. -/
def syncBody (a : SyncArgs) (env : SyncEnv) : Results × Bool :=
  runOps env (dryRunOf a)
    (operations env.srcSnapshot env.dstSnapshot (trashRootOf a) (thresholdOf a)
      (metadataOnlyOf a) env.lastBytes).enum
    (syncInitResults a)

/-- Whether `handler_file` is set when the `finally` block runs: the type
checks and path validations all passed (control reached the temporary-log
setup), a log file was requested, and creating the temporary log and its
handler succeeded. -/
def handlerFileSet (a : SyncArgs) (env : SyncEnv) : Bool :=
  typeChecksPass a && pathChecksPass a env && env.tmpLogOk && (logFileOf a).isSome

/-- The `Results` aggregate as it stands when the `finally` block runs:
every `TypeError`/`ValueError`, `KeyboardInterrupt` and unexpected exception
in the body was caught by the outer handlers, which leave `success` at
`False`; `success` is set to `True` only after the loop completes. -/
def syncBodyResult (a : SyncArgs) (env : SyncEnv) : Results :=
  if ¬ typeChecksPass a then Results.init
  else if ¬ pathChecksPass a env then syncInitResults a
  else if (logFileOf a).isSome ∧ ¬ env.tmpLogOk then syncInitResults a
  else if ¬ env.scanOk then syncInitResults a
  else if (syncBody a env).2 then (syncBody a env).1
  else { (syncBody a env).1 with success := true }

/-- `sync`: validate, install the log, scan, stream the plan through the
executor, catch body exceptions, then run the `finally` block. When
`handler_file` was installed, the `finally` block executes
`tmp_log_file.replace(log_file)` after all the `except` handlers and before
`return results`, with nothing catching it: if that rename fails the
exception propagates out of `sync` (`none`); otherwise the `Results`
aggregate is returned. -/
def syncModel (a : SyncArgs) (env : SyncEnv) : Option Results :=
  if handlerFileSet a env ∧ ¬ env.logReplaceOk then none
  else some (syncBodyResult a env)

/-- The operation loop never touches the `success` flag. -/
theorem runOps_success (env : SyncEnv) (dr : Bool) (l : List (Nat × Op)) (r : Results) :
    (runOps env dr l r).1.success = r.success := by
  induction l generalizing r with
  | nil => rfl
  | cons x l ih =>
    obtain ⟨i, op⟩ := x
    unfold runOps
    split
    · exact ih r
    · cases env.opOutcome i with
      | interrupt => rfl
      | ok => exact (ih _).trans (by cases op <;> rfl)
      | osErr => exact (ih _).trans (by cases op <;> rfl)

theorem syncBody_success (a : SyncArgs) (env : SyncEnv) :
    (syncBody a env).1.success = false := by
  unfold syncBody
  rw [runOps_success]
  rfl

/-- Characterisation of the aggregate standing when the `finally` block runs:
`success` is `True` exactly when the validations, the log installation (when
requested), the scans and the whole operation stream succeeded; a validation
failure before scanning leaves every per-kind counter at zero. -/
theorem syncBodyResult_spec (a : SyncArgs) (env : SyncEnv) :
    ((syncBodyResult a env).success = true ↔
      (typeChecksPass a = true ∧ pathChecksPass a env = true ∧
       ((logFileOf a).isSome = true → env.tmpLogOk = true) ∧
       env.scanOk = true ∧ (syncBody a env).2 = false)) ∧
    (¬ (typeChecksPass a = true ∧ pathChecksPass a env = true) →
      (syncBodyResult a env).success = false ∧
      (syncBodyResult a env).errors = [] ∧
      (syncBodyResult a env).create_success = 0 ∧ (syncBodyResult a env).create_error = 0 ∧
      (syncBodyResult a env).rename_success = 0 ∧ (syncBodyResult a env).rename_error = 0 ∧
      (syncBodyResult a env).update_success = 0 ∧ (syncBodyResult a env).update_error = 0 ∧
      (syncBodyResult a env).delete_success = 0 ∧ (syncBodyResult a env).delete_error = 0 ∧
      (syncBodyResult a env).dir_create_success = 0 ∧ (syncBodyResult a env).dir_create_error = 0 ∧
      (syncBodyResult a env).dir_delete_success = 0 ∧ (syncBodyResult a env).dir_delete_error = 0 ∧
      (syncBodyResult a env).byte_diff = 0) := by
  unfold syncBodyResult
  by_cases ht : typeChecksPass a
  · by_cases hp : pathChecksPass a env
    · by_cases hl : (logFileOf a).isSome ∧ ¬ env.tmpLogOk
      · rw [if_neg (by simpa using ht), if_neg (by simpa using hp), if_pos hl]
        constructor
        · constructor
          · intro hsucc
            exact absurd hsucc (by simp [syncInitResults, Results.init])
          · rintro ⟨_, _, himp, _, _⟩
            exact absurd (himp hl.1) hl.2
        · intro hc
          exact absurd ⟨ht, hp⟩ hc
      · by_cases hs : env.scanOk
        · rw [if_neg (by simpa using ht), if_neg (by simpa using hp), if_neg hl,
            if_neg (by simpa using hs)]
          constructor
          · cases hb : (syncBody a env).2 with
            | true =>
              simp only [hb, if_pos]
              constructor
              · intro hsucc
                rw [syncBody_success a env] at hsucc
                exact absurd hsucc (by simp)
              · rintro ⟨_, _, _, _, hf⟩
                exact absurd hf (by simp)
            | false =>
              simp only [hb, Bool.false_eq_true, if_neg, not_false_eq_true]
              constructor
              · intro _
                refine ⟨ht, hp, ?_, hs, trivial⟩
                intro hiso
                by_contra hnt
                exact hl ⟨hiso, by simpa using hnt⟩
              · intro _
                exact trivial
          · intro hc
            exact absurd ⟨ht, hp⟩ hc
        · rw [if_neg (by simpa using ht), if_neg (by simpa using hp), if_neg hl,
            if_pos (by simpa using hs)]
          refine ⟨⟨fun hsucc => ?_,
              fun hcon => absurd hcon.2.2.2.1 (by simpa using hs)⟩,
            fun _ => ⟨rfl, rfl, rfl, rfl, rfl, rfl, rfl, rfl, rfl, rfl, rfl, rfl,
              rfl, rfl, rfl⟩⟩
          exact absurd hsucc (by simp [syncInitResults, Results.init])
    · rw [if_neg (by simpa using ht), if_pos (by simpa using hp)]
      refine ⟨⟨fun hsucc => ?_, fun hcon => absurd hcon.2.1 (by simpa using hp)⟩,
        fun _ => ⟨rfl, rfl, rfl, rfl, rfl, rfl, rfl, rfl, rfl, rfl, rfl, rfl,
          rfl, rfl, rfl⟩⟩
      exact absurd hsucc (by simp [syncInitResults, Results.init])
  · rw [if_pos (by simpa using ht)]
    refine ⟨⟨fun hsucc => ?_, fun hcon => absurd hcon.1 (by simpa using ht)⟩,
      fun _ => ⟨rfl, rfl, rfl, rfl, rfl, rfl, rfl, rfl, rfl, rfl, rfl, rfl,
        rfl, rfl, rfl⟩⟩
    exact absurd hsucc (by simp [Results.init])

/-- C10 (amended): `sync` returns a `Results` in every case except one — when
`handler_file` was installed (validations passed, a log file was requested
and the temporary log was created) and the unguarded `finally`-block rename
`tmp_log_file.replace(log_file)` fails, the exception propagates out of
`sync` and nothing is returned. On every returned `Results`, `success` is
`True` exactly when the validations, the log installation (when requested),
the scans and the whole operation stream succeeded without a fatal
(non-`OSError`) exception, and a validation failure before scanning leaves
every per-kind success/error counter at zero. -/
theorem claim_C10_amended_returns_unless_log_finalize (a : SyncArgs) (env : SyncEnv) :
    (syncModel a env = none ↔
      (handlerFileSet a env = true ∧ env.logReplaceOk = false)) ∧
    (∀ r, syncModel a env = some r →
      ((r.success = true ↔
        (typeChecksPass a = true ∧ pathChecksPass a env = true ∧
         ((logFileOf a).isSome = true → env.tmpLogOk = true) ∧
         env.scanOk = true ∧ (syncBody a env).2 = false)) ∧
       (¬ (typeChecksPass a = true ∧ pathChecksPass a env = true) →
        r.success = false ∧ r.errors = [] ∧
        r.create_success = 0 ∧ r.create_error = 0 ∧
        r.rename_success = 0 ∧ r.rename_error = 0 ∧
        r.update_success = 0 ∧ r.update_error = 0 ∧
        r.delete_success = 0 ∧ r.delete_error = 0 ∧
        r.dir_create_success = 0 ∧ r.dir_create_error = 0 ∧
        r.dir_delete_success = 0 ∧ r.dir_delete_error = 0 ∧
        r.byte_diff = 0))) := by
  unfold syncModel
  by_cases hfin : handlerFileSet a env ∧ ¬ env.logReplaceOk
  · rw [if_pos hfin]
    refine ⟨⟨fun _ => ⟨hfin.1, by simpa using hfin.2⟩, fun _ => rfl⟩, ?_⟩
    intro r hr
    exact absurd hr (by simp)
  · rw [if_neg hfin]
    constructor
    · constructor
      · intro hnone
        exact absurd hnone (by simp)
      · rintro ⟨h1, h2⟩
        exact absurd ⟨h1, by simp [h2]⟩ hfin
    · intro r hr
      have hr2 := Option.some.inj hr
      subst hr2
      exact syncBodyResult_spec a env

/-- Well-typed arguments for the `sync` witness. -/
def aGoodW : SyncArgs :=
  ⟨.str "s", .str "d", .pynone, .str "+ **", .bool false, .pynone, .bool false,
   .bool false, .pynone, .bool false, .bool false⟩

/-- Arguments with a type error (`src` is an int) for the `sync` witness. -/
def aBadW : SyncArgs :=
  ⟨.int 3, .str "d", .pynone, .str "+ **", .bool false, .pynone, .bool false,
   .bool false, .pynone, .bool false, .bool false⟩

/-- An environment in which every validation passes, the temporary log (if
requested) is installed, the final log rename succeeds and both scans return
empty snapshots. -/
def envW : SyncEnv :=
  ⟨true, true, true, true, false, false, true, false, true, false, true, true,
   ⟨"", [], [], []⟩, ⟨"", [], [], []⟩, fun _ => [], fun _ => .ok, fun _ => "",
   true, true⟩

/-- Well-typed arguments requesting the log file `x/y.log`, for the C10
counterexample. -/
def aLogX : SyncArgs :=
  ⟨.str "s", .str "d", .pynone, .str "+ **", .bool false, .pynone, .bool false,
   .bool false, .str "x/y.log", .bool false, .bool false⟩

/-- An environment in which every validation passes (the chosen log file does
not yet exist), the temporary log is installed, both scans return empty
snapshots — and the final `tmp_log_file.replace(log_file)` fails, as it does
when the log path's parent directory is missing or the rename crosses
filesystems. -/
def envLogX : SyncEnv :=
  { envW with logReplaceOk := false }

/-- C10 (counterexample): with well-typed arguments, every validation passing
and a log file requested, a failure of the `finally`-block rename
`tmp_log_file.replace(log_file)` (which runs after all the `except` handlers
with nothing catching it) propagates out of `sync` and no `Results` is
returned — contradicting the claim that for every input `sync` returns a
`Results` rather than propagating an exception. Concrete real-world inputs
hitting this path: a `log` path whose parent directory does not exist, or
`log="auto"` with the temporary directory on a different filesystem from the
home directory. -/
theorem claim_C10_counterexample_log_replace :
    typeChecksPass aLogX = true ∧ pathChecksPass aLogX envLogX = true ∧
    envLogX.scanOk = true ∧ (logFileOf aLogX).isSome = true ∧
    syncModel aLogX envLogX = none := by
  decide

theorem claim_C10_witness :
    (syncBodyResult aGoodW envW).success = true ∧
    syncModel aLogX envLogX = none ∧
    ((syncBodyResult aBadW envW).success = false ∧
     (syncBodyResult aBadW envW).errors = [] ∧
     (syncBodyResult aBadW envW).create_success = 0 ∧
     (syncBodyResult aBadW envW).create_error = 0 ∧
     (syncBodyResult aBadW envW).rename_success = 0 ∧
     (syncBodyResult aBadW envW).rename_error = 0 ∧
     (syncBodyResult aBadW envW).update_success = 0 ∧
     (syncBodyResult aBadW envW).update_error = 0 ∧
     (syncBodyResult aBadW envW).delete_success = 0 ∧
     (syncBodyResult aBadW envW).delete_error = 0 ∧
     (syncBodyResult aBadW envW).dir_create_success = 0 ∧
     (syncBodyResult aBadW envW).dir_create_error = 0 ∧
     (syncBodyResult aBadW envW).dir_delete_success = 0 ∧
     (syncBodyResult aBadW envW).dir_delete_error = 0 ∧
     (syncBodyResult aBadW envW).byte_diff = 0) :=
  ⟨((claim_C10_amended_returns_unless_log_finalize aGoodW envW).2
      (syncBodyResult aGoodW envW) (by decide)).1.mpr
      ⟨by decide, by decide, fun _ => rfl, rfl, by decide⟩,
   (claim_C10_amended_returns_unless_log_finalize aLogX envLogX).1.mpr
      ⟨by decide, rfl⟩,
   ((claim_C10_amended_returns_unless_log_finalize aBadW envW).2
      (syncBodyResult aBadW envW) (by decide)).2
      (fun h => absurd h.1 (by decide))⟩

theorem claim_C9_witness :
    DeltaSpec srcW7 dstW7
      (Op.update (joinPath srcW7.root (realName srcW7 "u"))
        (joinPath dstW7.root (realName dstW7 "u"))
        (((5 : Nat) : Int) - ((3 : Nat) : Int)) ("U " ++ realName dstW7 "u")) :=
  claim_C9_byte_deltas srcW7 dstW7 none none true (fun _ => []) _ (by decide)

end Psync
